import Mathlib

/-!
# Letter sign language converter (`script.js`)

A shallow embedding of the text-to-letter-sign pipeline of `script.js`.

JavaScript strings are sequences of UTF-16 code units; `word.split('')`,
`.length`, `trim`, and the regular expressions of the script (none of which
carries the `u` flag) all work on code units.  A string is therefore a list
of code units, and a "character" of a word is one code unit, exactly the
elements `word.split('')` hands to `createLetterElement`.
-/

namespace LetterSign

/-- A JavaScript string: its UTF-16 code units. -/
abbrev JSString := List Nat

/-- Code units of a string literal whose characters all lie in the Basic
Multilingual Plane (every literal of the script does). -/
def units (s : String) : JSString := s.toList.map Char.toNat

/-! ## Whitespace, `trim`, `split` -/

/-- The class `\s` of a JavaScript regular expression, which is also the set
that `String.prototype.trim` strips (ECMAScript WhiteSpace and
LineTerminator): TAB, LF, VT, FF, CR, SPACE, NBSP, U+1680, U+2000..U+200A,
U+2028, U+2029, U+202F, U+205F, U+3000, U+FEFF. -/
def isWhiteSpace (c : Nat) : Bool :=
  (9 ≤ c && c ≤ 13) || c == 32 || c == 160 || c == 5760 ||
  (8192 ≤ c && c ≤ 8202) || c == 8232 || c == 8233 || c == 8239 ||
  c == 8287 || c == 12288 || c == 65279

/-- The class `[\s,.!?;:]` used by `convertText`. -/
def isSeparator (c : Nat) : Bool :=
  isWhiteSpace c || c == 44 || c == 46 || c == 33 || c == 63 || c == 59 || c == 58

/-- The method `String.prototype.trim`. -/
def trim (s : JSString) : JSString :=
  ((s.dropWhile isWhiteSpace).reverse.dropWhile isWhiteSpace).reverse

/-- Scanner behind `S.split(/[cls]+/)`: `cur` holds (reversed) the piece being
read, `inRun` tells that the previous code unit belonged to the separator run
just matched.  A run closes the current piece once; the end of the string
closes the last piece (possibly empty). -/
def splitGo (cls : Nat → Bool) : JSString → JSString → Bool → List JSString
  | [], cur, _ => [cur.reverse]
  | c :: rest, cur, inRun =>
    if cls c then
      if inRun then splitGo cls rest cur true
      else cur.reverse :: splitGo cls rest [] true
    else splitGo cls rest (c :: cur) false

/-- The call `S.split(/[cls]+/)` for a character class `cls`: the pieces of `S`
between the maximal runs of `cls`; an empty string gives `[""]`. -/
def splitRegex (cls : Nat → Bool) (s : JSString) : List JSString :=
  splitGo cls s [] false

/-- The `.filter(word => word.length > 0)` of both split sites. -/
def nonEmptyWords (ws : List JSString) : List JSString :=
  ws.filter (fun word => decide (word.length > 0))

/-- The word list of `convertText`:
`text.split(/[\s,.!?;:]+/).filter(word => word.length > 0)` on the trimmed
input. -/
def conversionWords (value : JSString) : List JSString :=
  nonEmptyWords (splitRegex isSeparator (trim value))

/-! ## Alphabet registry -/

/-- The two values of `currentLanguage`. -/
inductive Lang where
  | en
  | ar
  deriving DecidableEq

/-- The string held by `currentLanguage`, as spliced into the image path. -/
def Lang.code : Lang → JSString
  | .en => units "en"
  | .ar => units "ar"

/-- The object literal `arabicCharMap` (lines 20-31), key by key in source
order; each key is one code unit. -/
def arabicCharMap : List (Nat × JSString) :=
  [ (0x0627, units "ALEF"), (0x0623, units "ALEF_HAMZA_ABOVE"),
    (0x0625, units "ALEF_HAMZA_BELOW"), (0x0622, units "ALEF_MADDA"),
    (0x0628, units "BA"), (0x062A, units "TA"), (0x062B, units "THA"),
    (0x062C, units "JEEM"), (0x062D, units "HA"), (0x062E, units "KHA"),
    (0x062F, units "DAL"), (0x0630, units "THAL"), (0x0631, units "RA"),
    (0x0632, units "ZAY"),
    (0x0633, units "SEEN"), (0x0634, units "SHEEN"), (0x0635, units "SAD"),
    (0x0636, units "DAD"),
    (0x0637, units "TAH"), (0x0638, units "ZAH"), (0x0639, units "AIN"),
    (0x063A, units "GHAIN"),
    (0x0641, units "FA"), (0x0642, units "QAF"), (0x0643, units "KAF"),
    (0x0644, units "LAM"),
    (0x0645, units "MEEM"), (0x0646, units "NOON"), (0x0647, units "HA2"),
    (0x0648, units "WAW"), (0x064A, units "YEH"), (0x0649, units "ALEF_MAKSURA"),
    (0x0629, units "TEH_MARBUTA"), (0x0626, units "YEH_HAMZA_ABOVE"),
    (0x0624, units "WAW_HAMZA") ]

/-- The call `letter.toUpperCase()` on a one-unit string.  ECMAScript fixes the
result on ASCII (`a`..`z` move to `A`..`Z`, the rest stays); outside ASCII the
result comes from the Unicode case tables of the host (it may even be longer
than one unit), which are not part of the script and are taken as the
parameter `U`. -/
def toUpperCase (U : Nat → JSString) (letter : Nat) : JSString :=
  if 97 ≤ letter ∧ letter ≤ 122 then [letter - 32]
  else if letter < 128 then [letter]
  else U letter

/-- The function `getFileNameForLetter` (lines 322-330).  `arabicCharMap[letter]`
is the own property for `letter` when there is one and `undefined` otherwise
(the inherited properties of an object all have longer names than one unit);
`||` falls through to `letter` on `undefined` and on the empty string. -/
def getFileNameForLetter (U : Nat → JSString) (currentLanguage : Lang)
    (letter : Nat) : JSString :=
  match currentLanguage with
  | .en => toUpperCase U letter
  | .ar =>
    match arabicCharMap.lookup letter with
    | some name => if name.length = 0 then [letter] else name
    | none => [letter]

/-- The constant `displayLetter` of `createLetterElement` (line 233). -/
def displayLetter (U : Nat → JSString) (currentLanguage : Lang)
    (letter : Nat) : JSString :=
  match currentLanguage with
  | .en => toUpperCase U letter
  | .ar => [letter]

/-! ## The document -/

/-- The format indicator written by `updateFormatIndicator`. -/
inductive Format where
  | PNG
  | TEXT
  deriving DecidableEq

/-- A `.letter-group` element: what `createLetterElement` builds for one
letter.  `format` is `none` until the image check of the cell settles. -/
structure LetterGroup where
  /-- Held by `img.dataset.letter`, the fallback text and the copy action. -/
  displayLetter : JSString
  /-- Held by `img.dataset.filename`. -/
  fileName : JSString
  /-- Held by `img.src`. -/
  imagePath : JSString
  /-- The number shown by the label, `index + 1`. -/
  label : Nat
  /-- The format indicator, set by `img.onload` or `img.onerror`. -/
  format : Option Format
  deriving DecidableEq

/-- A child of a `.letters-container`. -/
inductive LetterNode where
  | group (g : LetterGroup)
  | separator
  deriving DecidableEq

/-- A `.word-container` element together with its letters container. -/
structure WordContainer where
  /-- Text of the word span. -/
  word : JSString
  /-- The language indicator (`ENGLISH` or `ARABIC`). -/
  langIndicator : Lang
  /-- First number of the label, `wordIndex + 1`. -/
  position : Nat
  /-- Second number of the label, the value of `wordCount`. -/
  total : Nat
  /-- Children of the letters container. -/
  letters : List LetterNode
  deriving DecidableEq

/-- A child of `signOutput`. -/
inductive OutNode where
  | placeholder
  | error (message : String)
  | word (w : WordContainer)
  | copyBtn
  deriving DecidableEq

/-- A call of `convertText` suspended at `await createWordDisplay(...)`: its
local `words`, the loop variable, and the detached word container whose image
checks are outstanding.  Several calls can be suspended at once (Ctrl/Cmd+Enter
is not disabled while a conversion runs); the state lists them, a conversion
that resumes and suspends again moves to the end of the list. -/
structure Task where
  words : List JSString
  wordIndex : Nat
  current : WordContainer
  deriving DecidableEq

/-- The application state: the textarea value, the variables of the closure
(`currentLanguage`, `wordCount`, `letterCount`), the children of `signOutput`
and the suspended conversions.  The label and the `disabled` flag of the
convert button, the classes and styles are presentation and are left out. -/
structure State where
  value : JSString
  currentLanguage : Lang
  wordCount : Nat
  letterCount : Nat
  signOutput : List OutNode
  tasks : List Task
  deriving DecidableEq

/-! ## Operations -/

/-- The function `updateCounters` (lines 110-123). -/
def updateCounters (s : State) : State :=
  let text := trim s.value
  let words := nonEmptyWords (splitRegex isWhiteSpace text)
  { s with
    wordCount := words.length
    letterCount := (text.filter (fun c => !isWhiteSpace c)).length }

/-- The function `clearOutput` (lines 383-390). -/
def clearOutput (s : State) : State :=
  { s with signOutput := [OutNode.placeholder] }

/-- The function `showError` (lines 393-408). -/
def showError (message : String) (s : State) : State :=
  { s with signOutput := [OutNode.error message] }

/-- The function `setLanguage` (lines 55-76). -/
def setLanguage (lang : Lang) (s : State) : State :=
  clearOutput { s with currentLanguage := lang }

/-- The function `clearAll` (lines 375-380). -/
def clearAll (s : State) : State :=
  updateCounters (clearOutput { s with value := [] })

/-- The executor of `createLetterElement` (lines 225-318): appends the new
letter group to `container`, and a separator unless the letter is the last. -/
def createLetterElement (U : Nat → JSString) (currentLanguage : Lang)
    (container : List LetterNode) (letter index totalLetters : Nat) :
    List LetterNode :=
  let fileName := getFileNameForLetter U currentLanguage letter
  let letterGroup : LetterGroup :=
    { displayLetter := displayLetter U currentLanguage letter
      fileName := fileName
      imagePath := units "images" ++ units "/" ++ currentLanguage.code ++
        units "/" ++ fileName ++ units ".png"
      label := index + 1
      format := none }
  let container := container ++ [LetterNode.group letterGroup]
  if index < totalLetters - 1 then container ++ [LetterNode.separator]
  else container

/-- The loop `letters.forEach((letter, letterIndex) => ...)` (lines 210-213). -/
def forEachLetter (U : Nat → JSString) (currentLanguage : Lang)
    (totalLetters : Nat) : List Nat → Nat → List LetterNode → List LetterNode
  | [], _, container => container
  | letter :: rest, letterIndex, container =>
    forEachLetter U currentLanguage totalLetters rest (letterIndex + 1)
      (createLetterElement U currentLanguage container letter letterIndex
        totalLetters)

/-- The synchronous part of `createWordDisplay` (lines 172-213): the detached
word container with one pending letter group per code unit of `word`. -/
def createWordDisplay (U : Nat → JSString) (s : State) (word : JSString)
    (wordIndex : Nat) : WordContainer :=
  { word := word
    langIndicator := s.currentLanguage
    position := wordIndex + 1
    total := s.wordCount
    letters := forEachLetter U s.currentLanguage word.length word 0 [] }

/-- The letter groups among the children of a letters container. -/
def letterGroups : List LetterNode → List LetterGroup
  | [] => []
  | LetterNode.group g :: rest => g :: letterGroups rest
  | LetterNode.separator :: rest => letterGroups rest

/-- All letter promises are resolved: what `Promise.all` waits for. -/
def allSettled (letters : List LetterNode) : Bool :=
  (letterGroups letters).all (fun g => g.format.isSome)

/-- The image check of letter `index` has not settled yet. -/
def isPending (index : Nat) (letters : List LetterNode) : Bool :=
  (letterGroups letters).any (fun g => g.label == index + 1 && g.format.isNone)

/-- The handlers `img.onload` / `img.onerror` of letter `index` (lines 259-282):
the format indicator of that letter group becomes `format`. -/
def settleLetter (index : Nat) (format : Format) :
    List LetterNode → List LetterNode
  | [] => []
  | LetterNode.group g :: rest =>
    (if g.label = index + 1 then LetterNode.group { g with format := some format }
     else LetterNode.group g) :: settleLetter index format rest
  | LetterNode.separator :: rest =>
    LetterNode.separator :: settleLetter index format rest

/-- The format tag of a settlement: `PNG` from `img.onload`, `TEXT` from
`img.onerror`. -/
def formatOf (loaded : Bool) : Format :=
  if loaded then Format.PNG else Format.TEXT

/-- Removal done by `addCopyButton`: the first `.copy-btn` of the document. -/
def removeCopyBtn : List OutNode → List OutNode
  | [] => []
  | OutNode.copyBtn :: rest => rest
  | n :: rest => n :: removeCopyBtn rest

/-- The function `addCopyButton` (lines 352-372). -/
def addCopyButton (s : State) : State :=
  { s with signOutput := removeCopyBtn s.signOutput ++ [OutNode.copyBtn] }

/-- The loop of `convertText` (lines 152-157) from `wordIndex` on, `remaining`
being `words` from that index: build the word, and suspend on its image checks;
a word without letters has nothing to wait for, is appended at once and the
loop goes on.  After the last word the copy button is added. -/
def processWords (U : Nat → JSString) (words : List JSString) :
    List JSString → Nat → State → State
  | [], _, s => addCopyButton s
  | word :: rest, wordIndex, s =>
    let w := createWordDisplay U s word wordIndex
    if allSettled w.letters then
      processWords U words rest (wordIndex + 1)
        { s with signOutput := s.signOutput ++ [OutNode.word w] }
    else
      { s with tasks := s.tasks ++ [{ words := words, wordIndex := wordIndex, current := w }] }

/-- The function `convertText` (lines 126-167) up to its first suspension. -/
def convertText (U : Nat → JSString) (s : State) : State :=
  let text := trim s.value
  if text.length = 0 then showError "Please enter some text to convert!" s
  else
    let s := clearOutput s
    let words := nonEmptyWords (splitRegex isSeparator text)
    if words.length = 0 then
      showError "No valid words found. Please enter some text." s
    else processWords U words words 0 s

/-- The image of letter `index` of the word awaited by the `task`-th suspended
conversion fires `load` (`loaded = true`) or `error`.  An image fires once, so
a settled letter is left alone.  When the last letter of the word settles,
`Promise.all` resolves: the word container is appended to `signOutput` and the
loop of that conversion resumes at the next word. -/
def imageSettled (U : Nat → JSString) (task index : Nat) (loaded : Bool)
    (s : State) : State :=
  match s.tasks.get? task with
  | none => s
  | some t =>
    if isPending index t.current.letters then
      let letters := settleLetter index (formatOf loaded) t.current.letters
      let w : WordContainer := { t.current with letters := letters }
      if allSettled letters then
        processWords U t.words (t.words.drop (t.wordIndex + 1)) (t.wordIndex + 1)
          { s with
            signOutput := s.signOutput ++ [OutNode.word w]
            tasks := s.tasks.eraseIdx task }
      else
        { s with tasks := s.tasks.set task { t with current := w } }
    else s

/-- What can happen to the page. -/
inductive Event where
  /-- The user edits the textarea; the `input` listener runs `updateCounters`. -/
  | input (value : JSString)
  /-- A click on a language button. -/
  | setLanguage (lang : Lang)
  /-- A click on the convert button, or Ctrl/Cmd+Enter. -/
  | convertText
  /-- A click on the clear button, or Ctrl/Cmd+L. -/
  | clearAll
  /-- An image check settles. -/
  | imageSettled (task index : Nat) (loaded : Bool)
  deriving DecidableEq

/-- One event handler run to completion. -/
def step (U : Nat → JSString) (s : State) : Event → State
  | Event.input value => updateCounters { s with value := value }
  | Event.setLanguage lang => setLanguage lang s
  | Event.convertText => convertText U s
  | Event.clearAll => clearAll s
  | Event.imageSettled task index loaded => imageSettled U task index loaded s

/-- A sequence of events, handled in order. -/
def run (U : Nat → JSString) (s : State) (events : List Event) : State :=
  events.foldl (step U) s

/-- The state after `initApp` (lines 48-52) on an empty textarea. -/
def initApp : State :=
  updateCounters (setLanguage Lang.en
    { value := [], currentLanguage := Lang.en, wordCount := 0, letterCount := 0,
      signOutput := [], tasks := [] })

/-- The word containers among the children of `signOutput`, in document
order. -/
def wordsOf : List OutNode → List WordContainer
  | [] => []
  | OutNode.word w :: rest => w :: wordsOf rest
  | _ :: rest => wordsOf rest

/-! ## Observations and specification-side definitions -/

/-- Display form and asset key of every letter cell of a word container, in
document order. -/
def cellsOf (w : WordContainer) : List (JSString × JSString) :=
  (letterGroups w.letters).map (fun g => (g.displayLetter, g.fileName))

/-- The two numbers of every word label of the output, in document order. -/
def labelsOf (out : List OutNode) : List (Nat × Nat) :=
  (wordsOf out).map (fun w => (w.position, w.total))

/-- Specification side of the word counter: the number of maximal runs of
non-whitespace in `s`, counted as the positions that hold a non-whitespace
unit whose predecessor is whitespace or missing.  `prevWs` says whether the
unit before `s` is whitespace (or missing). -/
def nonWhitespaceRunsFrom : Bool → JSString → Nat
  | _, [] => 0
  | prevWs, c :: rest =>
    if isWhiteSpace c then nonWhitespaceRunsFrom true rest
    else (if prevWs then 1 else 0) + nonWhitespaceRunsFrom false rest

/-- Specification side of the word counter on a whole text. -/
def nonWhitespaceRuns (s : JSString) : Nat := nonWhitespaceRunsFrom true s

/-- Specification side of the letter counter: the number of non-whitespace
units of `s`. -/
def nonWhitespaceCount (s : JSString) : Nat :=
  s.countP (fun c => !isWhiteSpace c)

/-- A letter group as it was created: same element, format indicator not yet
written. -/
def LetterGroup.unsettled (g : LetterGroup) : LetterGroup :=
  { g with format := none }

/-- The letter group that `createLetterElement` builds for `letter` at position
`index`, with format indicator `format`. -/
def letterGroupFor (U : Nat → JSString) (lang : Lang) (letter index : Nat)
    (format : Option Format) : LetterGroup :=
  { displayLetter := displayLetter U lang letter
    fileName := getFileNameForLetter U lang letter
    imagePath := units "images" ++ units "/" ++ lang.code ++
      units "/" ++ getFileNameForLetter U lang letter ++ units ".png"
    label := index + 1
    format := format }

/-- The letter groups of the letters `letters`, the first of which has index
`index`, when the format indicator of letter `j` is `F j`.  Used to describe
the content of a letters container between creation and emission. -/
def groupsWith (U : Nat → JSString) (lang : Lang) (F : Nat → Option Format) :
    List Nat → Nat → List LetterGroup
  | [], _ => []
  | letter :: rest, index =>
    letterGroupFor U lang letter index (F index) ::
      groupsWith U lang F rest (index + 1)

/-- Effect of one settlement on the format indicators: an image fires once. -/
def settleFormat (F : Nat → Option Format) (e : Nat × Bool) :
    Nat → Option Format :=
  if F e.1 = none then Function.update F e.1 (some (formatOf e.2)) else F

/-- Effect of a sequence of settlements `(index, loaded)` on the format
indicators. -/
def settleFormats (F : Nat → Option Format) (evs : List (Nat × Bool)) :
    Nat → Option Format :=
  evs.foldl settleFormat F

/-- The settlement events `(index, loaded)` of one word, addressed to the
`task`-th suspended conversion. -/
def settlements (task : Nat) (evs : List (Nat × Bool)) : List Event :=
  evs.map (fun e => Event.imageSettled task e.1 e.2)

/-- A settlement schedule for the words of one conversion: for every word, the
settlements `(index, loaded)` of its image checks, one per letter, in any
order. -/
def Schedule (words : List JSString) (sched : List (List (Nat × Bool))) : Prop :=
  List.Forall₂ (fun word evs => (evs.map Prod.fst).Perm (List.range word.length))
    words sched

/-- The events of a schedule, for a conversion that is the only one
suspended. -/
def scheduleEvents : List (List (Nat × Bool)) → List Event
  | [] => []
  | evs :: rest => settlements 0 evs ++ scheduleEvents rest

/-- The word container `w` is the one built for `word` at loop index
`wordIndex` under alphabet `lang` and counter value `total`, after its image
checks settled as `evs`. -/
def IsEmitted (U : Nat → JSString) (lang : Lang) (total : Nat) (word : JSString)
    (wordIndex : Nat) (evs : List (Nat × Bool)) (w : WordContainer) : Prop :=
  w.word = word ∧ w.langIndicator = lang ∧ w.position = wordIndex + 1 ∧
  w.total = total ∧
  letterGroups w.letters =
    groupsWith U lang (settleFormats (fun _ => none) evs) word 0

/-- The containers `ws` are, in order, the ones built for `words` from loop
index `wordIndex` on, settled as in `sched`. -/
def EmittedFrom (U : Nat → JSString) (lang : Lang) (total : Nat) :
    Nat → List JSString → List (List (Nat × Bool)) → List WordContainer → Prop
  | _, [], [], [] => True
  | wordIndex, word :: words, evs :: sched, w :: ws =>
    IsEmitted U lang total word wordIndex evs w ∧
    EmittedFrom U lang total (wordIndex + 1) words sched ws
  | _, _, _, _ => False

/-- The children of a letters container as they were created: every format
indicator not yet written. -/
def unsettleNodes : List LetterNode → List LetterNode
  | [] => []
  | LetterNode.group g :: rest => LetterNode.group g.unsettled :: unsettleNodes rest
  | LetterNode.separator :: rest => LetterNode.separator :: unsettleNodes rest

/-- A word container as it was created: settlements only write format
indicators, so this identifies a word container through its life. -/
def WordContainer.unsettled (w : WordContainer) : WordContainer :=
  { w with letters := unsettleNodes w.letters }

/-- The word container `w` exists in state `s`, emitted (a child of
`signOutput`) or awaited by a suspended conversion, its image checks settled
or not. -/
def Known (s : State) (w : WordContainer) : Prop :=
  (∃ w0, OutNode.word w0 ∈ s.signOutput ∧ w0.unsettled = w.unsettled) ∨
  (∃ t, t ∈ s.tasks ∧ t.current.unsettled = w.unsettled)

/-- The word container `w` is, up to its format indicators, what the
synchronous part of `createWordDisplay` builds for `w.word` when
`currentLanguage` is `lang` and `wordCount` is `total`. -/
def CreatedWith (U : Nat → JSString) (lang : Lang) (total : Nat)
    (w : WordContainer) : Prop :=
  ∃ wordIndex, w.unsettled =
    { word := w.word, langIndicator := lang, position := wordIndex + 1,
      total := total,
      letters := forEachLetter U lang w.word.length w.word 0 [] }

/-- The input of the Arabic scenario: U+0623 U+0628. -/
def alefHamzaBa : JSString := [0x0623, 0x0628]

/-- A host case table that leaves every non-ASCII unit alone, for closed
examples. -/
def noCaseTable : Nat → JSString := fun c => [c]

/-- The state after typing `Hi` and starting the conversion: the word `Hi` is
awaited, both image checks outstanding. -/
def hiAwaited : State :=
  run noCaseTable initApp [Event.input (units "Hi"), Event.convertText]

/-- The run of the alphabet-switch scenario: `a b` is typed and converted under
the Latin alphabet, the alphabet is switched to Arabic while the first word is
awaited, then the image of each word loads. -/
def switchedRun : List Event :=
  [Event.input (units "a b"), Event.convertText, Event.setLanguage Lang.ar,
    Event.imageSettled 0 0 true, Event.imageSettled 0 0 true]

/-- The word container of `b` at the end of `switchedRun`. -/
def lateWord : WordContainer :=
  { word := units "b", langIndicator := Lang.ar, position := 2, total := 2,
    letters := [LetterNode.group
      { displayLetter := units "b", fileName := units "b",
        imagePath := units "images/ar/b.png", label := 1,
        format := some Format.PNG }] }

/-! ## Tokenizer lemmas -/

theorem splitGo_no_cls (cls : Nat → Bool) :
    ∀ (s cur : JSString) (inRun : Bool), (∀ c ∈ cur, cls c = false) →
      ∀ piece ∈ splitGo cls s cur inRun, ∀ c ∈ piece, cls c = false := by
  intro s
  induction s with
  | nil =>
    intro cur inRun hcur piece hp c hc
    simp only [splitGo, List.mem_singleton] at hp
    subst hp
    exact hcur c (List.mem_reverse.mp hc)
  | cons a rest ih =>
    intro cur inRun hcur piece hp c hc
    unfold splitGo at hp
    by_cases ha : cls a = true
    · rw [if_pos ha] at hp
      by_cases hr : inRun = true
      · rw [if_pos hr] at hp
        exact ih cur true hcur piece hp c hc
      · rw [if_neg hr] at hp
        rcases List.mem_cons.mp hp with h | h
        · subst h
          exact hcur c (List.mem_reverse.mp hc)
        · exact ih [] true (by simp) piece h c hc
    · rw [if_neg ha] at hp
      refine ih (a :: cur) false ?_ piece hp c hc
      intro d hd
      rcases List.mem_cons.mp hd with h | h
      · subst h
        simpa using ha
      · exact hcur d h

theorem conversionWords_ne_nil (s : JSString) :
    ∀ tok ∈ conversionWords s, tok ≠ [] := by
  intro tok htok
  unfold conversionWords nonEmptyWords at htok
  rw [List.mem_filter] at htok
  intro h
  subst h
  simp at htok

/-- Claim C1. Every token of the conversion tokenizer (trim, split on runs of
`[\s,.!?;:]`, drop empty pieces) is non-empty and contains no character of the
separator class; in particular none of space, tab, newline, `,` `.` `!` `?`
`;` `:`. -/
theorem C1_tokens_nonempty_no_separator (s : JSString) :
    ∀ tok ∈ conversionWords s,
      tok ≠ [] ∧ (∀ c ∈ tok, isSeparator c = false) ∧
      (∀ c ∈ tok, c ≠ 32 ∧ c ≠ 9 ∧ c ≠ 10 ∧ c ≠ 44 ∧ c ≠ 46 ∧ c ≠ 33 ∧
        c ≠ 63 ∧ c ≠ 59 ∧ c ≠ 58) := by
  intro tok htok
  unfold conversionWords nonEmptyWords at htok
  rw [List.mem_filter] at htok
  obtain ⟨hmem, hlen⟩ := htok
  have hsep : ∀ c ∈ tok, isSeparator c = false :=
    splitGo_no_cls isSeparator (trim s) [] false (by simp) tok hmem
  refine ⟨?_, hsep, ?_⟩
  · intro h
    subst h
    simp at hlen
  · intro c hc
    have h := hsep c hc
    refine ⟨?_, ?_, ?_, ?_, ?_, ?_, ?_, ?_, ?_⟩ <;>
      · intro hEq
        subst hEq
        revert h
        decide

/-! ## Association-list lemmas -/

theorem lookup_of_mem {β : Type} (l : List (Nat × β)) (c : Nat) (v : β)
    (hnodup : (l.map Prod.fst).Nodup) (hmem : (c, v) ∈ l) :
    l.lookup c = some v := by
  induction l with
  | nil => cases hmem
  | cons p rest ih =>
    obtain ⟨k, w⟩ := p
    rw [List.map_cons, List.nodup_cons] at hnodup
    rcases List.mem_cons.mp hmem with h | h
    · cases h
      simp [List.lookup]
    · have hne : c ≠ k := by
        intro hck
        subst hck
        exact hnodup.1 (List.mem_map.mpr ⟨(c, v), h, rfl⟩)
      have hbeq : (c == k) = false := by simpa using hne
      simp only [List.lookup, hbeq]
      exact ih hnodup.2 h

theorem lookup_of_not_mem {β : Type} (l : List (Nat × β)) (c : Nat)
    (hnot : ∀ v, (c, v) ∉ l) : l.lookup c = none := by
  induction l with
  | nil => rfl
  | cons p rest ih =>
    obtain ⟨k, w⟩ := p
    have hne : c ≠ k := by
      intro hck
      subst hck
      exact hnot w (List.mem_cons_self _ _)
    have hbeq : (c == k) = false := by simpa using hne
    simp only [List.lookup, hbeq]
    exact ih (fun v hv => hnot v (List.mem_cons_of_mem _ hv))

theorem arabicCharMap_keys_nodup : (arabicCharMap.map Prod.fst).Nodup := by
  decide

theorem arabicCharMap_values_nonempty :
    ∀ p ∈ arabicCharMap, p.2.length ≠ 0 := by
  decide

/-! ## Letters containers -/

theorem letterGroups_append (a b : List LetterNode) :
    letterGroups (a ++ b) = letterGroups a ++ letterGroups b := by
  induction a with
  | nil => rfl
  | cons n rest ih =>
    cases n with
    | group g => simp [letterGroups, ih]
    | separator => simp [letterGroups, ih]

theorem letterGroups_createLetterElement (U : Nat → JSString) (lang : Lang)
    (F : Nat → Option Format) (hF : ∀ j, F j = none)
    (container : List LetterNode) (letter index total : Nat) :
    letterGroups (createLetterElement U lang container letter index total) =
      letterGroups container ++ groupsWith U lang F [letter] index := by
  unfold createLetterElement
  by_cases h : index < total - 1
  · simp [h, letterGroups_append, letterGroups, groupsWith, letterGroupFor, hF]
  · simp [h, letterGroups_append, letterGroups, groupsWith, letterGroupFor, hF]

theorem letterGroups_forEachLetter (U : Nat → JSString) (lang : Lang)
    (F : Nat → Option Format) (hF : ∀ j, F j = none) (total : Nat) :
    ∀ (letters : List Nat) (index : Nat) (container : List LetterNode),
      letterGroups (forEachLetter U lang total letters index container) =
        letterGroups container ++ groupsWith U lang F letters index := by
  intro letters
  induction letters with
  | nil => intro index container; simp [forEachLetter, groupsWith]
  | cons c rest ih =>
    intro index container
    rw [forEachLetter, ih, letterGroups_createLetterElement U lang F hF]
    simp [groupsWith]

theorem letterGroups_settleLetter (i : Nat) (f : Format) (L : List LetterNode) :
    letterGroups (settleLetter i f L) =
      (letterGroups L).map
        (fun g => if g.label = i + 1 then { g with format := some f } else g) := by
  induction L with
  | nil => rfl
  | cons n rest ih =>
    cases n with
    | group g =>
      by_cases h : g.label = i + 1
      · simp [settleLetter, letterGroups, ih, h]
      · simp [settleLetter, letterGroups, ih, h]
    | separator => simp [settleLetter, letterGroups, ih]

theorem groupsWith_length (U : Nat → JSString) (lang : Lang)
    (F : Nat → Option Format) :
    ∀ (letters : List Nat) (index : Nat),
      (groupsWith U lang F letters index).length = letters.length := by
  intro letters
  induction letters with
  | nil => intro index; rfl
  | cons c rest ih => intro index; simp [groupsWith, ih]

theorem groupsWith_settle (U : Nat → JSString) (lang : Lang) (i : Nat)
    (f : Format) :
    ∀ (letters : List Nat) (index : Nat) (F : Nat → Option Format),
      (groupsWith U lang F letters index).map
        (fun g => if g.label = i + 1 then { g with format := some f } else g) =
      groupsWith U lang (Function.update F i (some f)) letters index := by
  intro letters
  induction letters with
  | nil => intro index F; rfl
  | cons c rest ih =>
    intro index F
    by_cases h : index = i
    · subst h
      simp [groupsWith, letterGroupFor, ih]
    · have h' : ¬ (index + 1 = i + 1) := by omega
      simp [groupsWith, letterGroupFor, ih, h, h', Function.update_noteq]

theorem groupsWith_unsettled (U : Nat → JSString) (lang : Lang) :
    ∀ (letters : List Nat) (index : Nat) (F : Nat → Option Format),
      (groupsWith U lang F letters index).map LetterGroup.unsettled =
      groupsWith U lang (fun _ => none) letters index := by
  intro letters
  induction letters with
  | nil => intro index F; rfl
  | cons c rest ih =>
    intro index F
    simp [groupsWith, letterGroupFor, ih, LetterGroup.unsettled]

theorem groupsWith_all_settled (U : Nat → JSString) (lang : Lang) :
    ∀ (letters : List Nat) (index : Nat) (F : Nat → Option Format),
      (groupsWith U lang F letters index).all (fun g => g.format.isSome) = true ↔
      ∀ j, index ≤ j → j < index + letters.length → (F j).isSome = true := by
  intro letters
  induction letters with
  | nil =>
    intro index F
    simp [groupsWith]
    intro j h1 h2
    omega
  | cons c rest ih =>
    intro index F
    simp only [groupsWith, letterGroupFor, List.all_cons, Bool.and_eq_true, ih, List.length_cons]
    constructor
    · rintro ⟨h0, hrest⟩ j h1 h2
      by_cases hj : j = index
      · subst hj; exact h0
      · exact hrest j (by omega) (by omega)
    · intro h
      exact ⟨h index (le_refl _) (by omega), fun j h1 h2 => h j (by omega) (by omega)⟩

theorem groupsWith_any_pending (U : Nat → JSString) (lang : Lang) (i : Nat) :
    ∀ (letters : List Nat) (index : Nat) (F : Nat → Option Format),
      (groupsWith U lang F letters index).any
        (fun g => g.label == i + 1 && g.format.isNone) = true ↔
      (index ≤ i ∧ i < index + letters.length ∧ F i = none) := by
  intro letters
  induction letters with
  | nil =>
    intro index F
    simp [groupsWith]
    intro h1 h2
    omega
  | cons c rest ih =>
    intro index F
    simp only [groupsWith, letterGroupFor, List.any_cons, Bool.or_eq_true, ih, List.length_cons,
      Bool.and_eq_true, beq_iff_eq, Option.isNone_iff_eq_none]
    constructor
    · rintro (⟨h1, h2⟩ | ⟨h1, h2, h3⟩)
      · have : index = i := by omega
        subst this
        exact ⟨le_refl _, by omega, h2⟩
      · exact ⟨by omega, by omega, h3⟩
    · rintro ⟨h1, h2, h3⟩
      by_cases hj : index = i
      · subst hj
        exact Or.inl ⟨rfl, h3⟩
      · exact Or.inr ⟨by omega, by omega, h3⟩

/-! ## Sequences of settlements -/

theorem settleFormats_concat (F : Nat → Option Format) (init : List (Nat × Bool))
    (last : Nat × Bool) :
    settleFormats F (init ++ [last]) = settleFormat (settleFormats F init) last := by
  unfold settleFormats
  rw [List.foldl_append]
  rfl

theorem settleFormats_some (evs : List (Nat × Bool)) :
    ∀ (F : Nat → Option Format) (j : Nat) (f : Format),
      F j = some f → settleFormats F evs j = some f := by
  induction evs with
  | nil => intro F j f h; exact h
  | cons e rest ih =>
    intro F j f h
    show settleFormats (settleFormat F e) rest j = some f
    apply ih
    unfold settleFormat
    by_cases he : F e.1 = none
    · rw [if_pos he]
      have hne : j ≠ e.1 := by
        intro hje
        rw [hje, he] at h
        cases h
      rw [Function.update_noteq hne]
      exact h
    · rw [if_neg he]
      exact h

theorem settleFormat_self (F : Nat → Option Format) (e : Nat × Bool) :
    (settleFormat F e e.1).isSome = true := by
  unfold settleFormat
  by_cases he : F e.1 = none
  · rw [if_pos he, Function.update_same]
    rfl
  · rw [if_neg he]
    cases h : F e.1 with
    | none => exact absurd h he
    | some f => rfl

theorem settleFormats_isSome_of_mem (evs : List (Nat × Bool)) :
    ∀ (F : Nat → Option Format) (j : Nat),
      j ∈ evs.map Prod.fst → (settleFormats F evs j).isSome = true := by
  induction evs with
  | nil => intro F j h; cases h
  | cons e rest ih =>
    intro F j h
    show (settleFormats (settleFormat F e) rest j).isSome = true
    rw [List.map_cons, List.mem_cons] at h
    by_cases hj : j = e.1
    · subst hj
      have h1 := settleFormat_self F e
      cases h2 : settleFormat F e e.1 with
      | none => rw [h2] at h1; cases h1
      | some f => rw [settleFormats_some rest _ _ f h2]; rfl
    · rcases h with h | h
      · exact absurd h hj
      · exact ih _ j h

theorem settleFormats_none_of_not_mem (evs : List (Nat × Bool)) :
    ∀ (F : Nat → Option Format) (j : Nat),
      F j = none → j ∉ evs.map Prod.fst → settleFormats F evs j = none := by
  induction evs with
  | nil => intro F j h _; exact h
  | cons e rest ih =>
    intro F j h hnot
    show settleFormats (settleFormat F e) rest j = none
    rw [List.map_cons, List.mem_cons, not_or] at hnot
    apply ih _ j _ hnot.2
    unfold settleFormat
    by_cases he : F e.1 = none
    · rw [if_pos he, Function.update_noteq hnot.1]
      exact h
    · rw [if_neg he]
      exact h

theorem settleFormats_of_mem (evs : List (Nat × Bool)) :
    ∀ (F : Nat → Option Format) (i : Nat) (b : Bool),
      (evs.map Prod.fst).Nodup → (i, b) ∈ evs → F i = none →
      settleFormats F evs i = some (formatOf b) := by
  induction evs with
  | nil => intro F i b _ h; cases h
  | cons e rest ih =>
    intro F i b hnodup hmem hF
    show settleFormats (settleFormat F e) rest i = some (formatOf b)
    rw [List.map_cons, List.nodup_cons] at hnodup
    rcases List.mem_cons.mp hmem with h | h
    · subst h
      apply settleFormats_some
      unfold settleFormat
      rw [if_pos hF, Function.update_same]
    · have hne : i ≠ e.1 := by
        intro hie
        apply hnodup.1
        rw [← hie]
        exact List.mem_map.mpr ⟨(i, b), h, rfl⟩
      apply ih _ i b hnodup.2 h
      unfold settleFormat
      by_cases he : F e.1 = none
      · rw [if_pos he, Function.update_noteq hne]
        exact hF
      · rw [if_neg he]
        exact hF

/-! ## The suspended conversions -/

theorem set_of_get? {α : Type} :
    ∀ (l : List α) (k : Nat) (a : α), l.get? k = some a → l.set k a = l := by
  intro l
  induction l with
  | nil => intro k a h; cases k <;> cases h
  | cons x rest ih =>
    intro k a h
    cases k with
    | zero =>
      simp only [List.get?] at h
      cases h
      rfl
    | succ k =>
      simp only [List.get?] at h
      simp only [List.set, ih k a h]

theorem get?_set_of_get? {α : Type} :
    ∀ (l : List α) (k : Nat) (a b : α),
      l.get? k = some a → (l.set k b).get? k = some b := by
  intro l
  induction l with
  | nil => intro k a b h; cases k <;> cases h
  | cons x rest ih =>
    intro k a b h
    cases k with
    | zero => rfl
    | succ k =>
      simp only [List.get?] at h
      simp only [List.set, List.get?]
      exact ih k a b h

theorem eraseIdx_set_self {α : Type} :
    ∀ (l : List α) (k : Nat) (b : α), (l.set k b).eraseIdx k = l.eraseIdx k := by
  intro l
  induction l with
  | nil => intro k b; rfl
  | cons x rest ih =>
    intro k b
    cases k with
    | zero => rfl
    | succ k => simp only [List.set, List.eraseIdx, ih k b]

theorem run_append (U : Nat → JSString) (s : State) (a b : List Event) :
    run U s (a ++ b) = run U (run U s a) b := by
  unfold run
  exact List.foldl_append _ _ _ _

theorem run_settlements_cons (U : Nat → JSString) (s : State) (k : Nat)
    (e : Nat × Bool) (rest : List (Nat × Bool)) :
    run U s (settlements k (e :: rest)) =
      run U (imageSettled U k e.1 e.2 s) (settlements k rest) := rfl

theorem settlements_append (k : Nat) (a b : List (Nat × Bool)) :
    settlements k (a ++ b) = settlements k a ++ settlements k b := by
  unfold settlements
  exact List.map_append _ _ _

/-- A settlement that leaves some letter of the awaited word pending only
rewrites the letters container of that word. -/
theorem imageSettled_pending (U : Nat → JSString) (lang : Lang) (word : JSString)
    (k : Nat) (e : Nat × Bool) (s : State) (t : Task) (F : Nat → Option Format)
    (hget : s.tasks.get? k = some t)
    (hgroups : letterGroups t.current.letters = groupsWith U lang F word 0)
    (he : e.1 < word.length)
    (hleft : ∃ j, j < word.length ∧ settleFormat F e j = none) :
    ∃ L, imageSettled U k e.1 e.2 s =
        { s with
          tasks := s.tasks.set k { t with current := { t.current with letters := L } } } ∧
      letterGroups L = groupsWith U lang (settleFormat F e) word 0 := by
  unfold imageSettled
  simp only [hget]
  by_cases hF : F e.1 = none
  · have hpend : isPending e.1 t.current.letters = true := by
      unfold isPending
      rw [hgroups, groupsWith_any_pending]
      exact ⟨Nat.zero_le _, by omega, hF⟩
    have hgr : letterGroups (settleLetter e.1 (formatOf e.2) t.current.letters) =
        groupsWith U lang (settleFormat F e) word 0 := by
      rw [letterGroups_settleLetter, hgroups, groupsWith_settle]
      unfold settleFormat
      rw [if_pos hF]
    have hnot : allSettled (settleLetter e.1 (formatOf e.2) t.current.letters)
        = false := by
      obtain ⟨j, hj, hnone⟩ := hleft
      cases hall : allSettled (settleLetter e.1 (formatOf e.2) t.current.letters) with
      | false => rfl
      | true =>
        unfold allSettled at hall
        rw [hgr, groupsWith_all_settled] at hall
        have := hall j (Nat.zero_le _) (by omega)
        rw [hnone] at this
        cases this
    rw [if_pos hpend]
    simp only [hnot]
    exact ⟨_, rfl, hgr⟩
  · have hpend : isPending e.1 t.current.letters = false := by
      cases hp : isPending e.1 t.current.letters with
      | false => rfl
      | true =>
        unfold isPending at hp
        rw [hgroups, groupsWith_any_pending] at hp
        exact absurd hp.2.2 hF
    rw [hpend]
    refine ⟨t.current.letters, ?_, ?_⟩
    · have : s.tasks.set k { t with current := { t.current with letters := t.current.letters } }
          = s.tasks := set_of_get? s.tasks k t hget
      simp only [Bool.false_eq_true, if_false]
      rw [this]
    · rw [hgroups]
      unfold settleFormat
      rw [if_neg hF]

/-- Settlements that never complete the awaited word only rewrite its letters
container. -/
theorem run_settlements_pending (U : Nat → JSString) (lang : Lang)
    (word : JSString) (k : Nat) :
    ∀ (evs : List (Nat × Bool)) (s : State) (t : Task) (F : Nat → Option Format),
      s.tasks.get? k = some t →
      letterGroups t.current.letters = groupsWith U lang F word 0 →
      (∀ e ∈ evs, e.1 < word.length) →
      (∃ j, j < word.length ∧ settleFormats F evs j = none) →
      ∃ L, run U s (settlements k evs) =
          { s with
            tasks := s.tasks.set k { t with current := { t.current with letters := L } } } ∧
        letterGroups L = groupsWith U lang (settleFormats F evs) word 0 := by
  intro evs
  induction evs with
  | nil =>
    intro s t F hget hgroups _ _
    refine ⟨t.current.letters, ?_, hgroups⟩
    have : s.tasks.set k { t with current := { t.current with letters := t.current.letters } }
        = s.tasks := set_of_get? s.tasks k t hget
    rw [this]
    rfl
  | cons e rest ih =>
    intro s t F hget hgroups hlt hleft
    obtain ⟨j, hj, hnone⟩ := hleft
    have hnone1 : settleFormat F e j = none := by
      cases h : settleFormat F e j with
      | none => rfl
      | some f =>
        have := settleFormats_some rest (settleFormat F e) j f h
        have h2 : settleFormats F (e :: rest) j = some f := this
        rw [hnone] at h2
        cases h2
    obtain ⟨L1, hs1, hg1⟩ := imageSettled_pending U lang word k e s t F hget hgroups
      (hlt e (List.mem_cons_self _ _)) ⟨j, hj, hnone1⟩
    rw [run_settlements_cons, hs1]
    obtain ⟨L, hrun, hg⟩ := ih
      { s with tasks := s.tasks.set k { t with current := { t.current with letters := L1 } } }
      { t with current := { t.current with letters := L1 } } (settleFormat F e)
      (get?_set_of_get? s.tasks k t _ hget) hg1
      (fun e' he' => hlt e' (List.mem_cons_of_mem _ he')) ⟨j, hj, hnone⟩
    refine ⟨L, ?_, hg⟩
    rw [hrun]
    simp only [List.set_set]

/-- The settlement of the last pending letter of the awaited word appends the
word container to the output and resumes the loop at the next word. -/
theorem imageSettled_last (U : Nat → JSString) (lang : Lang) (word : JSString)
    (k i : Nat) (b : Bool) (s : State) (t : Task) (F : Nat → Option Format)
    (hget : s.tasks.get? k = some t)
    (hgroups : letterGroups t.current.letters = groupsWith U lang F word 0)
    (hi : i < word.length) (hFi : F i = none)
    (hothers : ∀ j, j < word.length → j ≠ i → (F j).isSome = true) :
    imageSettled U k i b s =
      processWords U t.words (t.words.drop (t.wordIndex + 1)) (t.wordIndex + 1)
        { s with
          signOutput := s.signOutput ++ [OutNode.word
            { t.current with letters := settleLetter i (formatOf b) t.current.letters }]
          tasks := s.tasks.eraseIdx k } := by
  unfold imageSettled
  simp only [hget]
  have hpend : isPending i t.current.letters = true := by
    unfold isPending
    rw [hgroups, groupsWith_any_pending]
    exact ⟨Nat.zero_le _, by omega, hFi⟩
  have hall : allSettled (settleLetter i (formatOf b) t.current.letters) = true := by
    unfold allSettled
    rw [letterGroups_settleLetter, hgroups, groupsWith_settle, groupsWith_all_settled]
    intro j _ hj
    by_cases hji : j = i
    · subst hji
      rw [Function.update_same]
      rfl
    · rw [Function.update_noteq hji]
      exact hothers j (by omega) hji
  rw [if_pos hpend]
  simp only [hall, if_true]

/-- Word assembly.  When the image checks of a freshly created word settle
in any order (the indices of `evs` are a permutation of the letter positions),
the run ends with the word container appended to the output, its letter groups
being those created for the letters, in character order, each with the format
of its own settlement. -/
theorem run_settlements_word (U : Nat → JSString) (lang : Lang) (word : JSString)
    (k : Nat) (evs : List (Nat × Bool)) (s : State) (t : Task)
    (hget : s.tasks.get? k = some t)
    (hgroups : letterGroups t.current.letters =
      groupsWith U lang (fun _ => none) word 0)
    (hne : word ≠ [])
    (hperm : (evs.map Prod.fst).Perm (List.range word.length)) :
    ∃ L, letterGroups L =
        groupsWith U lang (settleFormats (fun _ => none) evs) word 0 ∧
      run U s (settlements k evs) =
        processWords U t.words (t.words.drop (t.wordIndex + 1)) (t.wordIndex + 1)
          { s with
            signOutput := s.signOutput ++
              [OutNode.word { t.current with letters := L }]
            tasks := s.tasks.eraseIdx k } := by
  have hnodup : (evs.map Prod.fst).Nodup :=
    hperm.nodup_iff.mpr (List.nodup_range _)
  have hmem : ∀ j, j ∈ evs.map Prod.fst ↔ j < word.length := by
    intro j
    rw [hperm.mem_iff, List.mem_range]
  rcases List.eq_nil_or_concat evs with hnil | ⟨init, last, hcat⟩
  · subst hnil
    have h0 : 0 < word.length := List.length_pos.mpr hne
    have := (hmem 0).mpr h0
    cases this
  · rw [List.concat_eq_append] at hcat
    subst hcat
    rw [List.map_append, List.map_cons, List.map_nil] at hnodup hmem
    have hlast_not : last.1 ∉ init.map Prod.fst := by
      intro h
      have := List.disjoint_of_nodup_append hnodup h
      exact this (List.mem_singleton_self _)
    have hlast_lt : last.1 < word.length :=
      (hmem last.1).mp (List.mem_append_right _ (List.mem_singleton_self _))
    have hinit_lt : ∀ e ∈ init, e.1 < word.length := by
      intro e he
      exact (hmem e.1).mp (List.mem_append_left _ (List.mem_map.mpr ⟨e, he, rfl⟩))
    have hnone : settleFormats (fun _ => none) init last.1 = none :=
      settleFormats_none_of_not_mem init _ _ rfl hlast_not
    obtain ⟨L1, hrun1, hg1⟩ := run_settlements_pending U lang word k init s t
      (fun _ => none) hget hgroups hinit_lt ⟨last.1, hlast_lt, hnone⟩
    have hothers : ∀ j, j < word.length → j ≠ last.1 →
        (settleFormats (fun _ => none) init j).isSome = true := by
      intro j hj hjl
      rcases List.mem_append.mp ((hmem j).mpr hj) with h | h
      · exact settleFormats_isSome_of_mem init _ j h
      · exact absurd (List.mem_singleton.mp h) hjl
    have hlastStep := imageSettled_last U lang word k last.1 last.2
      { s with tasks := s.tasks.set k { t with current := { t.current with letters := L1 } } }
      { t with current := { t.current with letters := L1 } }
      (settleFormats (fun _ => none) init)
      (get?_set_of_get? s.tasks k t _ hget) hg1 hlast_lt hnone hothers
    refine ⟨settleLetter last.1 (formatOf last.2) L1, ?_, ?_⟩
    · rw [letterGroups_settleLetter, hg1, groupsWith_settle, settleFormats_concat]
      unfold settleFormat
      rw [if_pos hnone]
    · rw [settlements_append, run_append, hrun1]
      show imageSettled U k last.1 last.2 _ = _
      rw [hlastStep]
      simp only [eraseIdx_set_self]

/-! ## A whole conversion -/

theorem wordsOf_append (a b : List OutNode) :
    wordsOf (a ++ b) = wordsOf a ++ wordsOf b := by
  induction a with
  | nil => rfl
  | cons n rest ih => cases n <;> simp [wordsOf, ih]

theorem wordsOf_map_word (ws : List WordContainer) :
    wordsOf (ws.map OutNode.word) = ws := by
  induction ws with
  | nil => rfl
  | cons w rest ih => simp [wordsOf, ih]

theorem removeCopyBtn_words (ws : List WordContainer) :
    removeCopyBtn (ws.map OutNode.word) = ws.map OutNode.word := by
  induction ws with
  | nil => rfl
  | cons w rest ih => simp [removeCopyBtn, ih]

theorem allSettled_createWordDisplay (U : Nat → JSString) (s : State)
    (word : JSString) (wordIndex : Nat) (hne : word ≠ []) :
    allSettled (createWordDisplay U s word wordIndex).letters = false := by
  cases h : allSettled (createWordDisplay U s word wordIndex).letters with
  | false => rfl
  | true =>
    unfold allSettled createWordDisplay at h
    simp only [] at h
    rw [letterGroups_forEachLetter U s.currentLanguage (fun _ => none) (fun _ => rfl),
      letterGroups, List.nil_append, groupsWith_all_settled] at h
    have := h 0 (le_refl _) (by have := List.length_pos.mpr hne; omega)
    cases this

theorem processWords_cons (U : Nat → JSString) (words : List JSString)
    (word : JSString) (rest : List JSString) (wordIndex : Nat) (s : State)
    (hne : word ≠ []) :
    processWords U words (word :: rest) wordIndex s =
      { s with
        tasks := s.tasks ++
          [{ words := words, wordIndex := wordIndex,
             current := createWordDisplay U s word wordIndex }] } := by
  rw [processWords]
  simp only [allSettled_createWordDisplay U s word wordIndex hne]
  rfl

/-- The loop of `convertText` under a settlement schedule: every word is
emitted, in order, and the copy button closes the output. -/
theorem run_processWords (U : Nat → JSString) (words : List JSString) :
    ∀ (rem : List JSString) (sched : List (List (Nat × Bool))) (wordIndex : Nat)
      (s : State),
      s.tasks = [] → words.drop wordIndex = rem → (∀ w ∈ rem, w ≠ []) →
      Schedule rem sched →
      ∃ W : List WordContainer,
        (run U (processWords U words rem wordIndex s) (scheduleEvents sched)).tasks = [] ∧
        (run U (processWords U words rem wordIndex s) (scheduleEvents sched)).signOutput =
          removeCopyBtn (s.signOutput ++ W.map OutNode.word) ++ [OutNode.copyBtn] ∧
        EmittedFrom U s.currentLanguage s.wordCount wordIndex rem sched W := by
  intro rem
  induction rem with
  | nil =>
    intro sched wordIndex s htasks _ _ hsched
    cases hsched
    refine ⟨[], ?_, ?_, trivial⟩
    · exact htasks
    · simp [scheduleEvents, run, processWords, addCopyButton]
  | cons word rest ih =>
    intro sched wordIndex s htasks hdrop hne hsched
    cases hsched with
    | cons hperm hrest =>
      rename_i evs sched'
      have hword : word ≠ [] := hne word (List.mem_cons_self _ _)
      rw [processWords_cons U words word rest wordIndex s hword, htasks, List.nil_append]
      obtain ⟨L, hL, hrun⟩ := run_settlements_word U s.currentLanguage word 0 evs
        { s with tasks := [{ words := words, wordIndex := wordIndex,
                             current := createWordDisplay U s word wordIndex }] }
        { words := words, wordIndex := wordIndex,
          current := createWordDisplay U s word wordIndex }
        rfl
        (by
          show letterGroups (forEachLetter U s.currentLanguage word.length word 0 []) = _
          rw [letterGroups_forEachLetter U s.currentLanguage (fun _ => none) (fun _ => rfl)]
          rfl)
        hword hperm
      have hdrop' : words.drop (wordIndex + 1) = rest := by
        rw [← List.tail_drop, hdrop]
        rfl
      simp only [hdrop', List.eraseIdx] at hrun
      obtain ⟨W, h1, h2, h3⟩ := ih sched' (wordIndex + 1)
        { s with
          signOutput := s.signOutput ++ [OutNode.word
            { createWordDisplay U s word wordIndex with letters := L }]
          tasks := [] }
        rfl hdrop' (fun w hw => hne w (List.mem_cons_of_mem _ hw)) hrest
      refine ⟨{ createWordDisplay U s word wordIndex with letters := L } :: W, ?_, ?_, ?_⟩
      · show (run U _ (settlements 0 evs ++ scheduleEvents sched')).tasks = []
        rw [run_append, hrun]
        exact h1
      · show (run U _ (settlements 0 evs ++ scheduleEvents sched')).signOutput = _
        rw [run_append, hrun, h2]
        simp only [List.map_cons, List.append_assoc, List.singleton_append]
      · exact ⟨⟨rfl, rfl, rfl, rfl, hL⟩, h3⟩

theorem conversionWords_of_trim_empty (value : JSString)
    (h : (trim value).length = 0) : conversionWords value = [] := by
  unfold conversionWords
  rw [List.length_eq_zero] at h
  rw [h]
  rfl

/-- Conversion.  In a state with no other conversion suspended, on a text
with at least one word, `convertText` followed by the settlements of a schedule
leaves no conversion suspended and the output made of the placeholder, one
word container per word of the text in order, and the copy button. -/
theorem convertText_scheduled (U : Nat → JSString) (s : State)
    (sched : List (List (Nat × Bool)))
    (htasks : s.tasks = []) (hwords : conversionWords s.value ≠ [])
    (hsched : Schedule (conversionWords s.value) sched) :
    ∃ W : List WordContainer,
      (run U (convertText U s) (scheduleEvents sched)).tasks = [] ∧
      (run U (convertText U s) (scheduleEvents sched)).signOutput =
        OutNode.placeholder :: (W.map OutNode.word ++ [OutNode.copyBtn]) ∧
      EmittedFrom U s.currentLanguage s.wordCount 0 (conversionWords s.value) sched W := by
  have htrim : ¬ (trim s.value).length = 0 :=
    fun h => hwords (conversionWords_of_trim_empty s.value h)
  have hlen : ¬ (conversionWords s.value).length = 0 :=
    fun h => hwords (List.length_eq_zero.mp h)
  have hconv : convertText U s =
      processWords U (conversionWords s.value) (conversionWords s.value) 0
        (clearOutput s) := by
    unfold convertText
    rw [if_neg htrim]
    unfold conversionWords at hlen ⊢
    simp only [hlen, if_false]
  obtain ⟨W, h1, h2, h3⟩ := run_processWords U (conversionWords s.value)
    (conversionWords s.value) sched 0 (clearOutput s) htasks rfl
    (fun w hw => conversionWords_ne_nil s.value w hw) hsched
  refine ⟨W, ?_, ?_, h3⟩
  · rw [hconv]; exact h1
  · rw [hconv, h2]
    show removeCopyBtn (OutNode.placeholder :: W.map OutNode.word) ++ _ = _
    simp only [removeCopyBtn, removeCopyBtn_words, List.cons_append]

theorem groupsWith_cells (U : Nat → JSString) (lang : Lang) :
    ∀ (letters : List Nat) (index : Nat) (F : Nat → Option Format),
      (groupsWith U lang F letters index).map
        (fun g => (g.displayLetter, g.fileName)) =
      letters.map (fun c => (displayLetter U lang c, getFileNameForLetter U lang c)) := by
  intro letters
  induction letters with
  | nil => intro index F; rfl
  | cons c rest ih => intro index F; simp [groupsWith, letterGroupFor, ih]

theorem emittedFrom_cells (U : Nat → JSString) (lang : Lang) (total : Nat) :
    ∀ (words : List JSString) (sched : List (List (Nat × Bool)))
      (W : List WordContainer) (wordIndex : Nat),
      EmittedFrom U lang total wordIndex words sched W →
      W.map cellsOf = words.map (fun word =>
        word.map (fun c => (displayLetter U lang c, getFileNameForLetter U lang c))) := by
  intro words
  induction words with
  | nil =>
    intro sched W wordIndex h
    cases sched <;> cases W <;> first | rfl | exact h.elim
  | cons word rest ih =>
    intro sched W wordIndex h
    cases sched with
    | nil => cases W <;> exact h.elim
    | cons evs sched' =>
      cases W with
      | nil => exact h.elim
      | cons w W' =>
        obtain ⟨⟨_, _, _, _, hg⟩, hrest⟩ := h
        simp only [List.map_cons, ih sched' W' (wordIndex + 1) hrest]
        congr 1
        unfold cellsOf
        rw [hg, groupsWith_cells]

theorem emittedFrom_labels (U : Nat → JSString) (lang : Lang) (total : Nat) :
    ∀ (words : List JSString) (sched : List (List (Nat × Bool)))
      (W : List WordContainer) (wordIndex : Nat),
      EmittedFrom U lang total wordIndex words sched W →
      W.map (fun w => (w.position, w.total)) =
        (List.range' (wordIndex + 1) words.length).map (fun p => (p, total)) := by
  intro words
  induction words with
  | nil =>
    intro sched W wordIndex h
    cases sched <;> cases W <;> first | rfl | exact h.elim
  | cons word rest ih =>
    intro sched W wordIndex h
    cases sched with
    | nil => cases W <;> exact h.elim
    | cons evs sched' =>
      cases W with
      | nil => exact h.elim
      | cons w W' =>
        obtain ⟨⟨_, _, hp, ht, _⟩, hrest⟩ := h
        simp only [List.map_cons, List.length_cons, List.range'_succ,
          ih sched' W' (wordIndex + 1) hrest, hp, ht]

theorem convertText_observed (U : Nat → JSString) (s : State)
    (sched : List (List (Nat × Bool)))
    (htasks : s.tasks = []) (hwords : conversionWords s.value ≠ [])
    (hsched : Schedule (conversionWords s.value) sched) :
    (run U (convertText U s) (scheduleEvents sched)).tasks = [] ∧
    (wordsOf (run U (convertText U s) (scheduleEvents sched)).signOutput).map cellsOf =
      (conversionWords s.value).map (fun word => word.map (fun c =>
        (displayLetter U s.currentLanguage c,
          getFileNameForLetter U s.currentLanguage c))) ∧
    labelsOf (run U (convertText U s) (scheduleEvents sched)).signOutput =
      (List.range' 1 (conversionWords s.value).length).map (fun p => (p, s.wordCount)) := by
  obtain ⟨W, h1, h2, h3⟩ := convertText_scheduled U s sched htasks hwords hsched
  have hW : wordsOf (run U (convertText U s) (scheduleEvents sched)).signOutput = W := by
    rw [h2]
    show wordsOf (W.map OutNode.word ++ [OutNode.copyBtn]) = W
    rw [wordsOf_append, wordsOf_map_word]
    exact List.append_nil _
  refine ⟨h1, ?_, ?_⟩
  · rw [hW]
    exact emittedFrom_cells U _ _ _ sched W 0 h3
  · unfold labelsOf
    rw [hW]
    exact emittedFrom_labels U _ _ _ sched W 0 h3

theorem run_input_convert (U : Nat → JSString) (value : JSString)
    (events : List Event) :
    run U initApp (Event.input value :: Event.convertText :: events) =
      run U (convertText U (updateCounters { initApp with value := value })) events :=
  rfl

theorem run_language_input_convert (U : Nat → JSString) (lang : Lang)
    (value : JSString) (events : List Event) :
    run U initApp (Event.setLanguage lang :: Event.input value ::
      Event.convertText :: events) =
      run U (convertText U
        (updateCounters { setLanguage lang initApp with value := value })) events :=
  rfl

theorem mem_removeCopyBtn (w : WordContainer) :
    ∀ out : List OutNode, OutNode.word w ∈ out → OutNode.word w ∈ removeCopyBtn out := by
  intro out
  induction out with
  | nil => intro h; cases h
  | cons n rest ih =>
    intro h
    cases n with
    | copyBtn =>
      rcases List.mem_cons.mp h with h | h
      · cases h
      · exact h
    | placeholder =>
      rcases List.mem_cons.mp h with h | h
      · cases h
      · exact List.mem_cons_of_mem _ (ih h)
    | error m =>
      rcases List.mem_cons.mp h with h | h
      · cases h
      · exact List.mem_cons_of_mem _ (ih h)
    | word v =>
      rcases List.mem_cons.mp h with h | h
      · rw [h]; exact List.mem_cons_self _ _
      · exact List.mem_cons_of_mem _ (ih h)

theorem mem_processWords (U : Nat → JSString) (words : List JSString)
    (w : WordContainer) :
    ∀ (rem : List JSString) (wordIndex : Nat) (s : State),
      OutNode.word w ∈ s.signOutput →
      OutNode.word w ∈ (processWords U words rem wordIndex s).signOutput := by
  intro rem
  induction rem with
  | nil =>
    intro wordIndex s h
    exact List.mem_append_left _ (mem_removeCopyBtn w _ h)
  | cons word rest ih =>
    intro wordIndex s h
    rw [processWords]
    by_cases hall : allSettled (createWordDisplay U s word wordIndex).letters = true
    · simp only [hall, if_true]
      exact ih _ _ (List.mem_append_left _ h)
    · simp only [hall]
      exact h

theorem groupsWith_get? (U : Nat → JSString) (lang : Lang)
    (F : Nat → Option Format) :
    ∀ (letters : List Nat) (index i : Nat),
      (groupsWith U lang F letters index).get? i =
        (letters.get? i).map
          (fun c => letterGroupFor U lang c (index + i) (F (index + i))) := by
  intro letters
  induction letters with
  | nil => intro index i; rfl
  | cons c rest ih =>
    intro index i
    cases i with
    | zero => rfl
    | succ i =>
      simp only [groupsWith, List.get?, ih]
      have : index + 1 + i = index + (i + 1) := by omega
      rw [this]

/-! ## Counters -/

theorem runsFrom_cons (p : Bool) (c : Nat) (rest : JSString) :
    nonWhitespaceRunsFrom p (c :: rest) =
      if isWhiteSpace c then nonWhitespaceRunsFrom true rest
      else (if p then 1 else 0) + nonWhitespaceRunsFrom false rest := by
  rw [nonWhitespaceRunsFrom]

theorem splitGo_cons (cls : Nat → Bool) (c : Nat) (rest cur : JSString)
    (inRun : Bool) :
    splitGo cls (c :: rest) cur inRun =
      if cls c then
        if inRun then splitGo cls rest cur true
        else cur.reverse :: splitGo cls rest [] true
      else splitGo cls rest (c :: cur) false := by
  rw [splitGo]

theorem runsFrom_whitespace :
    ∀ (b : JSString) (p : Bool), (∀ c ∈ b, isWhiteSpace c = true) →
      nonWhitespaceRunsFrom p b = 0 := by
  intro b
  induction b with
  | nil => intro p _; rfl
  | cons c b ih =>
    intro p h
    rw [runsFrom_cons, if_pos (h c (List.mem_cons_self _ _))]
    exact ih true (fun d hd => h d (List.mem_cons_of_mem _ hd))

theorem runsFrom_whitespace_left :
    ∀ (a rest : JSString), (∀ c ∈ a, isWhiteSpace c = true) →
      nonWhitespaceRunsFrom true (a ++ rest) = nonWhitespaceRunsFrom true rest := by
  intro a
  induction a with
  | nil => intro rest _; rfl
  | cons c a ih =>
    intro rest h
    rw [List.cons_append, runsFrom_cons, if_pos (h c (List.mem_cons_self _ _))]
    exact ih rest (fun d hd => h d (List.mem_cons_of_mem _ hd))

theorem runsFrom_whitespace_right :
    ∀ (s b : JSString) (p : Bool), (∀ c ∈ b, isWhiteSpace c = true) →
      nonWhitespaceRunsFrom p (s ++ b) = nonWhitespaceRunsFrom p s := by
  intro s
  induction s with
  | nil =>
    intro b p h
    rw [List.nil_append, runsFrom_whitespace b p h]
    rfl
  | cons c s ih =>
    intro b p h
    rw [List.cons_append, runsFrom_cons, runsFrom_cons, ih b true h, ih b false h]

/-- What `trim` removes: a whitespace prefix and a whitespace suffix. -/
theorem trim_decompose (s : JSString) :
    ∃ a b : JSString, s = a ++ (trim s ++ b) ∧
      (∀ c ∈ a, isWhiteSpace c = true) ∧ (∀ c ∈ b, isWhiteSpace c = true) := by
  refine ⟨s.takeWhile isWhiteSpace,
    (((s.dropWhile isWhiteSpace).reverse).takeWhile isWhiteSpace).reverse, ?_, ?_, ?_⟩
  · have h1 : ((s.dropWhile isWhiteSpace).reverse.dropWhile isWhiteSpace).reverse ++
        ((s.dropWhile isWhiteSpace).reverse.takeWhile isWhiteSpace).reverse =
        s.dropWhile isWhiteSpace := by
      rw [← List.reverse_append, List.takeWhile_append_dropWhile, List.reverse_reverse]
    unfold trim
    rw [h1, List.takeWhile_append_dropWhile]
  · intro c hc
    exact List.mem_takeWhile_imp hc
  · intro c hc
    exact List.mem_takeWhile_imp (List.mem_reverse.mp hc)

theorem nonEmptyWords_cons (w : JSString) (ws : List JSString) :
    (nonEmptyWords (w :: ws)).length =
      (if w = [] then 0 else 1) + (nonEmptyWords ws).length := by
  unfold nonEmptyWords
  cases w with
  | nil => simp
  | cons c cs => simp; omega

theorem splitGo_count :
    ∀ (s cur : JSString) (inRun : Bool), (inRun = true → cur = []) →
      (nonEmptyWords (splitGo isWhiteSpace s cur inRun)).length =
        (if cur = [] then 0 else 1) + nonWhitespaceRunsFrom (decide (cur = [])) s := by
  intro s
  induction s with
  | nil =>
    intro cur inRun _
    show (nonEmptyWords [cur.reverse]).length = _
    rw [nonEmptyWords_cons]
    cases cur with
    | nil => rfl
    | cons c cs => simp [nonEmptyWords, nonWhitespaceRunsFrom]
  | cons c rest ih =>
    intro cur inRun hrun
    rw [splitGo_cons, runsFrom_cons]
    by_cases hc : isWhiteSpace c = true
    · rw [if_pos hc, if_pos hc]
      by_cases hr : inRun = true
      · rw [if_pos hr, ih cur true (fun _ => hrun hr), hrun hr]
        rfl
      · rw [if_neg hr, nonEmptyWords_cons, ih [] true (fun _ => rfl)]
        cases cur with
        | nil => simp
        | cons d ds => simp
    · rw [if_neg hc, if_neg hc, ih (c :: cur) false (fun h => by cases h)]
      cases cur with
      | nil => simp
      | cons d ds => simp

theorem countP_whitespace (b : JSString) (h : ∀ c ∈ b, isWhiteSpace c = true) :
    b.countP (fun c => !isWhiteSpace c) = 0 := by
  rw [List.countP_eq_zero]
  intro c hc
  simp [h c hc]

theorem updateCounters_wordCount (s : State) :
    (updateCounters s).wordCount = nonWhitespaceRuns s.value := by
  show (nonEmptyWords (splitGo isWhiteSpace (trim s.value) [] false)).length = _
  rw [splitGo_count (trim s.value) [] false (fun h => by cases h)]
  obtain ⟨a, b, hs, ha, hb⟩ := trim_decompose s.value
  unfold nonWhitespaceRuns
  conv_rhs => rw [hs]
  rw [runsFrom_whitespace_left a _ ha, runsFrom_whitespace_right _ b true hb]
  simp

theorem updateCounters_letterCount (s : State) :
    (updateCounters s).letterCount = nonWhitespaceCount s.value := by
  show ((trim s.value).filter (fun c => !isWhiteSpace c)).length = _
  obtain ⟨a, b, hs, ha, hb⟩ := trim_decompose s.value
  unfold nonWhitespaceCount
  conv_rhs => rw [hs]
  rw [List.countP_append, List.countP_append, countP_whitespace a ha,
    countP_whitespace b hb, List.countP_eq_length_filter]
  simp

/-! ## The history of a word -/

theorem mem_of_get? {α : Type} :
    ∀ (l : List α) (k : Nat) (a : α), l.get? k = some a → a ∈ l := by
  intro l
  induction l with
  | nil => intro k a h; cases k <;> cases h
  | cons x rest ih =>
    intro k a h
    cases k with
    | zero =>
      simp only [List.get?] at h
      cases h
      exact List.mem_cons_self _ _
    | succ k =>
      simp only [List.get?] at h
      exact List.mem_cons_of_mem _ (ih k a h)

theorem mem_of_mem_eraseIdx {α : Type} :
    ∀ (l : List α) (k : Nat) (a : α), a ∈ l.eraseIdx k → a ∈ l := by
  intro l
  induction l with
  | nil => intro k a h; cases h
  | cons x rest ih =>
    intro k a h
    cases k with
    | zero => exact List.mem_cons_of_mem _ h
    | succ k =>
      rcases List.mem_cons.mp h with h | h
      · rw [h]; exact List.mem_cons_self _ _
      · exact List.mem_cons_of_mem _ (ih k a h)

theorem mem_of_mem_set {α : Type} :
    ∀ (l : List α) (k : Nat) (a b : α), a ∈ l.set k b → a ∈ l ∨ a = b := by
  intro l
  induction l with
  | nil => intro k a b h; cases h
  | cons x rest ih =>
    intro k a b h
    cases k with
    | zero =>
      rcases List.mem_cons.mp h with h | h
      · exact Or.inr h
      · exact Or.inl (List.mem_cons_of_mem _ h)
    | succ k =>
      rcases List.mem_cons.mp h with h | h
      · rw [h]; exact Or.inl (List.mem_cons_self _ _)
      · rcases ih k a b h with h | h
        · exact Or.inl (List.mem_cons_of_mem _ h)
        · exact Or.inr h

theorem mem_of_mem_removeCopyBtn (w : WordContainer) :
    ∀ out : List OutNode, OutNode.word w ∈ removeCopyBtn out → OutNode.word w ∈ out := by
  intro out
  induction out with
  | nil => intro h; cases h
  | cons n rest ih =>
    intro h
    cases n with
    | copyBtn => exact List.mem_cons_of_mem _ h
    | placeholder =>
      rcases List.mem_cons.mp h with h | h
      · cases h
      · exact List.mem_cons_of_mem _ (ih h)
    | error m =>
      rcases List.mem_cons.mp h with h | h
      · cases h
      · exact List.mem_cons_of_mem _ (ih h)
    | word v =>
      rcases List.mem_cons.mp h with h | h
      · rw [h]; exact List.mem_cons_self _ _
      · exact List.mem_cons_of_mem _ (ih h)

theorem unsettleNodes_append (a b : List LetterNode) :
    unsettleNodes (a ++ b) = unsettleNodes a ++ unsettleNodes b := by
  induction a with
  | nil => rfl
  | cons n rest ih =>
    cases n with
    | group g => simp [unsettleNodes, ih]
    | separator => simp [unsettleNodes, ih]

theorem unsettleNodes_createLetterElement (U : Nat → JSString) (lang : Lang)
    (container : List LetterNode) (letter index total : Nat) :
    unsettleNodes (createLetterElement U lang container letter index total) =
      createLetterElement U lang (unsettleNodes container) letter index total := by
  unfold createLetterElement
  by_cases h : index < total - 1
  · simp [h, unsettleNodes_append, unsettleNodes, LetterGroup.unsettled]
  · simp [h, unsettleNodes_append, unsettleNodes, LetterGroup.unsettled]

theorem unsettleNodes_forEachLetter (U : Nat → JSString) (lang : Lang)
    (total : Nat) :
    ∀ (letters : List Nat) (index : Nat) (container : List LetterNode),
      unsettleNodes (forEachLetter U lang total letters index container) =
        forEachLetter U lang total letters index (unsettleNodes container) := by
  intro letters
  induction letters with
  | nil => intro index container; rfl
  | cons c rest ih =>
    intro index container
    rw [forEachLetter, ih, unsettleNodes_createLetterElement, forEachLetter]

theorem unsettleNodes_settleLetter (i : Nat) (f : Format) :
    ∀ L : List LetterNode, unsettleNodes (settleLetter i f L) = unsettleNodes L := by
  intro L
  induction L with
  | nil => rfl
  | cons n rest ih =>
    cases n with
    | group g =>
      by_cases h : g.label = i + 1
      · simp [settleLetter, unsettleNodes, ih, h, LetterGroup.unsettled]
      · simp [settleLetter, unsettleNodes, ih, h]
    | separator => simp [settleLetter, unsettleNodes, ih]

theorem letterGroups_unsettleNodes :
    ∀ L : List LetterNode,
      letterGroups (unsettleNodes L) = (letterGroups L).map LetterGroup.unsettled := by
  intro L
  induction L with
  | nil => rfl
  | cons n rest ih =>
    cases n with
    | group g => simp [unsettleNodes, letterGroups, ih]
    | separator => simp [unsettleNodes, letterGroups, ih]

theorem unsettled_createWordDisplay (U : Nat → JSString) (s : State)
    (word : JSString) (wordIndex : Nat) :
    (createWordDisplay U s word wordIndex).unsettled =
      createWordDisplay U s word wordIndex := by
  unfold WordContainer.unsettled createWordDisplay
  simp only [unsettleNodes_forEachLetter, unsettleNodes]

theorem createdWith_of_unsettled_eq (U : Nat → JSString) (s : State)
    (word : JSString) (wordIndex : Nat) (w : WordContainer)
    (h : (createWordDisplay U s word wordIndex).unsettled = w.unsettled) :
    CreatedWith U s.currentLanguage s.wordCount w := by
  rw [unsettled_createWordDisplay] at h
  have hword : w.word = word := by
    have := congrArg WordContainer.word h
    exact this.symm
  refine ⟨wordIndex, ?_⟩
  rw [← h, hword]
  rfl

theorem known_processWords (U : Nat → JSString) (words : List JSString)
    (w : WordContainer) :
    ∀ (rem : List JSString) (wordIndex : Nat) (s : State),
      Known (processWords U words rem wordIndex s) w →
      Known s w ∨ CreatedWith U s.currentLanguage s.wordCount w := by
  intro rem
  induction rem with
  | nil =>
    intro wordIndex s h
    left
    rcases h with ⟨w0, hw0, heq⟩ | ⟨t, ht, heq⟩
    · rcases List.mem_append.mp hw0 with hw0 | hw0
      · exact Or.inl ⟨w0, mem_of_mem_removeCopyBtn w0 _ hw0, heq⟩
      · cases List.mem_singleton.mp hw0
    · exact Or.inr ⟨t, ht, heq⟩
  | cons word rest ih =>
    intro wordIndex s h
    rw [processWords] at h
    by_cases hall : allSettled (createWordDisplay U s word wordIndex).letters = true
    · simp only [hall, if_true] at h
      rcases ih _ _ h with hk | hc
      · rcases hk with ⟨w0, hw0, heq⟩ | ⟨t, ht, heq⟩
        · rcases List.mem_append.mp hw0 with hw0 | hw0
          · exact Or.inl (Or.inl ⟨w0, hw0, heq⟩)
          · cases List.mem_singleton.mp hw0
            exact Or.inr (createdWith_of_unsettled_eq U s word wordIndex w heq)
        · exact Or.inl (Or.inr ⟨t, ht, heq⟩)
      · exact Or.inr hc
    · simp only [hall] at h
      rcases h with ⟨w0, hw0, heq⟩ | ⟨t, ht, heq⟩
      · exact Or.inl (Or.inl ⟨w0, hw0, heq⟩)
      · rcases List.mem_append.mp ht with ht | ht
        · exact Or.inl (Or.inr ⟨t, ht, heq⟩)
        · cases List.mem_singleton.mp ht
          exact Or.inr (createdWith_of_unsettled_eq U s word wordIndex w heq)

theorem known_imageSettled (U : Nat → JSString) (k i : Nat) (b : Bool)
    (s : State) (w : WordContainer) (h : Known (imageSettled U k i b s) w) :
    Known s w ∨ CreatedWith U s.currentLanguage s.wordCount w := by
  unfold imageSettled at h
  cases hget : s.tasks.get? k with
  | none =>
    rw [hget] at h
    exact Or.inl h
  | some t =>
    rw [hget] at h
    simp only [] at h
    have htmem : t ∈ s.tasks := mem_of_get? _ _ _ hget
    have hsame : ({ t.current with
        letters := settleLetter i (formatOf b) t.current.letters } :
        WordContainer).unsettled = t.current.unsettled := by
      unfold WordContainer.unsettled
      simp only [unsettleNodes_settleLetter]
    by_cases hp : isPending i t.current.letters = true
    · rw [if_pos hp] at h
      by_cases hall : allSettled (settleLetter i (formatOf b) t.current.letters) = true
      · simp only [hall, if_true] at h
        rcases known_processWords U _ w _ _ _ h with hk | hc
        · left
          rcases hk with ⟨w0, hw0, heq⟩ | ⟨t2, ht2, heq⟩
          · rcases List.mem_append.mp hw0 with hw0 | hw0
            · exact Or.inl ⟨w0, hw0, heq⟩
            · cases List.mem_singleton.mp hw0
              exact Or.inr ⟨t, htmem, hsame ▸ heq⟩
          · exact Or.inr ⟨t2, mem_of_mem_eraseIdx _ _ _ ht2, heq⟩
        · exact Or.inr hc
      · simp only [hall] at h
        left
        rcases h with ⟨w0, hw0, heq⟩ | ⟨t2, ht2, heq⟩
        · exact Or.inl ⟨w0, hw0, heq⟩
        · rcases mem_of_mem_set _ _ _ _ ht2 with ht2 | ht2
          · exact Or.inr ⟨t2, ht2, heq⟩
          · rw [ht2] at heq
            exact Or.inr ⟨t, htmem, hsame ▸ heq⟩
    · rw [if_neg hp] at h
      exact Or.inl h

theorem known_convertText (U : Nat → JSString) (s : State) (w : WordContainer)
    (h : Known (convertText U s) w) :
    Known s w ∨ CreatedWith U s.currentLanguage s.wordCount w := by
  have herr : ∀ (m : String) (s' : State), s'.tasks = s.tasks →
      Known (showError m s') w → Known s w := by
    intro m s' hs' hk
    rcases hk with ⟨w0, hw0, _⟩ | ⟨t, ht, heq⟩
    · cases List.mem_singleton.mp hw0
    · exact Or.inr ⟨t, hs' ▸ ht, heq⟩
  unfold convertText at h
  by_cases ht : (trim s.value).length = 0
  · rw [if_pos ht] at h
    exact Or.inl (herr _ s rfl h)
  · rw [if_neg ht] at h
    simp only [] at h
    by_cases hw : (nonEmptyWords (splitRegex isSeparator (trim s.value))).length = 0
    · rw [if_pos hw] at h
      exact Or.inl (herr _ (clearOutput s) rfl h)
    · rw [if_neg hw] at h
      rcases known_processWords U _ w _ _ _ h with hk | hc
      · left
        rcases hk with ⟨w0, hw0, _⟩ | ⟨t, ht, heq⟩
        · cases List.mem_singleton.mp hw0
        · exact Or.inr ⟨t, ht, heq⟩
      · exact Or.inr hc

/-- One event: a word that exists afterwards either existed before, or was
created by this event, which is then a conversion start or a settlement, with
the alphabet and the counter of the state the event found. -/
theorem known_step (U : Nat → JSString) (s : State) (e : Event) (w : WordContainer)
    (h : Known (step U s e) w) :
    Known s w ∨
    ((e = Event.convertText ∨ ∃ k i b, e = Event.imageSettled k i b) ∧
      CreatedWith U s.currentLanguage s.wordCount w) := by
  cases e with
  | input value => exact Or.inl h
  | setLanguage lang =>
    left
    rcases h with ⟨w0, hw0, _⟩ | ⟨t, ht, heq⟩
    · cases List.mem_singleton.mp hw0
    · exact Or.inr ⟨t, ht, heq⟩
  | convertText =>
    rcases known_convertText U s w h with hk | hc
    · exact Or.inl hk
    · exact Or.inr ⟨Or.inl rfl, hc⟩
  | clearAll =>
    left
    rcases h with ⟨w0, hw0, _⟩ | ⟨t, ht, heq⟩
    · cases List.mem_singleton.mp hw0
    · exact Or.inr ⟨t, ht, heq⟩
  | imageSettled k i b =>
    rcases known_imageSettled U k i b s w h with hk | hc
    · exact Or.inl hk
    · exact Or.inr ⟨Or.inr ⟨k, i, b, rfl⟩, hc⟩

theorem not_known_initApp (w : WordContainer) : ¬ Known initApp w := by
  rintro (⟨w0, hw0, _⟩ | ⟨t, ht, _⟩)
  · cases List.mem_singleton.mp hw0
  · cases ht

theorem run_concat (U : Nat → JSString) (s : State) (events : List Event)
    (e : Event) : run U s (events ++ [e]) = step U (run U s events) e := by
  rw [run_append]
  rfl

/-- Every word that exists in a reachable state appeared at one event of the
history (it did not exist before that event and exists after it), a conversion
start or a settlement, and was created with the alphabet and the counter of
the state that event found. -/
theorem known_history (U : Nat → JSString) (w : WordContainer) :
    ∀ events : List Event, Known (run U initApp events) w →
      ∃ pre e post, events = pre ++ e :: post ∧
        (e = Event.convertText ∨ ∃ k i b, e = Event.imageSettled k i b) ∧
        ¬ Known (run U initApp pre) w ∧
        Known (run U initApp (pre ++ [e])) w ∧
        CreatedWith U (run U initApp pre).currentLanguage
          (run U initApp pre).wordCount w := by
  intro events
  induction events using List.reverseRecOn with
  | nil => intro h; exact absurd h (not_known_initApp w)
  | append_singleton l a ih =>
    intro h
    by_cases hk : Known (run U initApp l) w
    · obtain ⟨pre, e, post, hl, he, h1, h2, h3⟩ := ih hk
      refine ⟨pre, e, post ++ [a], ?_, he, h1, h2, h3⟩
      rw [hl]
      simp
    · have h' := h
      rw [run_concat] at h'
      rcases known_step U _ a w h' with hk' | ⟨he, hc⟩
      · exact absurd hk' hk
      · exact ⟨l, a, [], rfl, he, hk, h, hc⟩

theorem currentLanguage_processWords (U : Nat → JSString) (words : List JSString) :
    ∀ (rem : List JSString) (wordIndex : Nat) (s : State),
      (processWords U words rem wordIndex s).currentLanguage = s.currentLanguage := by
  intro rem
  induction rem with
  | nil => intro wordIndex s; rfl
  | cons word rest ih =>
    intro wordIndex s
    rw [processWords]
    by_cases hall : allSettled (createWordDisplay U s word wordIndex).letters = true
    · simp only [hall, if_true]
      rw [ih]
    · simp only [hall]
      rfl

theorem currentLanguage_step (U : Nat → JSString) (s : State) (e : Event)
    (he : e = Event.convertText ∨ ∃ k i b, e = Event.imageSettled k i b) :
    (step U s e).currentLanguage = s.currentLanguage := by
  rcases he with he | ⟨k, i, b, he⟩
  · subst he
    show (convertText U s).currentLanguage = s.currentLanguage
    unfold convertText
    by_cases ht : (trim s.value).length = 0
    · rw [if_pos ht]; rfl
    · rw [if_neg ht]
      simp only []
      by_cases hw : (nonEmptyWords (splitRegex isSeparator (trim s.value))).length = 0
      · rw [if_pos hw]; rfl
      · rw [if_neg hw, currentLanguage_processWords]
        rfl
  · subst he
    show (imageSettled U k i b s).currentLanguage = s.currentLanguage
    unfold imageSettled
    cases hget : s.tasks.get? k with
    | none => rfl
    | some t =>
      simp only []
      by_cases hp : isPending i t.current.letters = true
      · rw [if_pos hp]
        by_cases hall : allSettled (settleLetter i (formatOf b) t.current.letters) = true
        · simp only [hall, if_true]
          rw [currentLanguage_processWords]
        · simp only [hall]
          rfl
      · rw [if_neg hp]

theorem createdWith_keys (U : Nat → JSString) (lang : Lang) (total : Nat)
    (w : WordContainer) (h : CreatedWith U lang total w) :
    w.langIndicator = lang ∧ w.total = total ∧
    cellsOf w = w.word.map (fun c =>
      (displayLetter U lang c, getFileNameForLetter U lang c)) := by
  obtain ⟨wordIndex, h⟩ := h
  refine ⟨congrArg WordContainer.langIndicator h, congrArg WordContainer.total h, ?_⟩
  have hl : unsettleNodes w.letters =
      forEachLetter U lang w.word.length w.word 0 [] :=
    congrArg WordContainer.letters h
  have hg := congrArg letterGroups hl
  rw [letterGroups_unsettleNodes,
    letterGroups_forEachLetter U lang (fun _ => none) (fun _ => rfl)] at hg
  have hc := congrArg (List.map (fun g : LetterGroup => (g.displayLetter, g.fileName))) hg
  rw [List.map_map, letterGroups, List.nil_append, groupsWith_cells] at hc
  rw [← hc]
  rfl

/-! ## Alphabet registry: C2, C10 -/

/-- Claim C2. With the Arabic alphabet selected, `getFileNameForLetter` returns
the table's value for every key of `arabicCharMap`, and the character itself
for every character that is not a key. -/
theorem C2_arabic_file_name (U : Nat → JSString) (c : Nat) :
    (∀ name, (c, name) ∈ arabicCharMap →
      getFileNameForLetter U Lang.ar c = name) ∧
    ((∀ name, (c, name) ∉ arabicCharMap) →
      getFileNameForLetter U Lang.ar c = [c]) := by
  constructor
  · intro name hmem
    have hl := lookup_of_mem arabicCharMap c name arabicCharMap_keys_nodup hmem
    have hne := arabicCharMap_values_nonempty (c, name) hmem
    simp only [getFileNameForLetter, hl]
    exact if_neg hne
  · intro hnot
    have hl := lookup_of_not_mem arabicCharMap c hnot
    simp only [getFileNameForLetter, hl]

/-- Witness of C2 on a key (U+0628, `BA`) and on a character that is not a key
(`A`). -/
theorem C2_arabic_file_name_witness :
    getFileNameForLetter noCaseTable Lang.ar 0x0628 = units "BA" ∧
    getFileNameForLetter noCaseTable Lang.ar 65 = [65] :=
  ⟨(C2_arabic_file_name noCaseTable 0x0628).1 (units "BA") (by decide),
   (C2_arabic_file_name noCaseTable 65).2
     (by intro name h; simp [arabicCharMap] at h)⟩

/-- Claim C10 as stated fails: the table does not have 33 entries. -/
theorem C10_not_33_entries : arabicCharMap.length ≠ 33 := by
  decide

/-- Claim C10, amended. `arabicCharMap` has exactly 35 entries, with pairwise
distinct keys. -/
theorem C10_table_has_35_entries :
    arabicCharMap.length = 35 ∧ (arabicCharMap.map Prod.fst).Nodup := by
  decide

/-! ## Empty input: C5 -/

theorem convertText_no_words (U : Nat → JSString) (s : State)
    (h : conversionWords s.value = []) :
    (∃ message, (convertText U s).signOutput = [OutNode.error message]) ∧
    wordsOf (convertText U s).signOutput = [] ∧
    (convertText U s).tasks = s.tasks := by
  unfold conversionWords at h
  unfold convertText
  by_cases ht : (trim s.value).length = 0
  · rw [if_pos ht]
    exact ⟨⟨_, rfl⟩, rfl, rfl⟩
  · rw [if_neg ht]
    simp only [h, List.length_nil, if_true]
    exact ⟨⟨_, rfl⟩, rfl, rfl⟩

/-- Claim C5. When the tokenization of the text is empty, `convertText` shows an
error: afterwards the output holds exactly one error message, no word
container, and no conversion was started (so no letter cell was created). -/
theorem C5_empty_tokenization_reports_error (U : Nat → JSString) (s : State)
    (h : conversionWords s.value = []) :
    (∃ message, (convertText U s).signOutput = [OutNode.error message]) ∧
    wordsOf (convertText U s).signOutput = [] ∧
    (convertText U s).tasks = s.tasks :=
  convertText_no_words U s h

/-- Witness of C5 on the whitespace-only text of the scenario (first guard of
`convertText`) and on a text made of separators only (second guard). -/
theorem C5_empty_tokenization_witness :
    ((∃ message,
      (convertText noCaseTable { initApp with value := units "   " }).signOutput
        = [OutNode.error message]) ∧
    wordsOf (convertText noCaseTable
      { initApp with value := units "   " }).signOutput = [] ∧
    (convertText noCaseTable { initApp with value := units "   " }).tasks = []) ∧
    ((∃ message,
      (convertText noCaseTable { initApp with value := units " ,.! " }).signOutput
        = [OutNode.error message]) ∧
    wordsOf (convertText noCaseTable
      { initApp with value := units " ,.! " }).signOutput = [] ∧
    (convertText noCaseTable { initApp with value := units " ,.! " }).tasks = []) :=
  ⟨C5_empty_tokenization_reports_error noCaseTable
    { initApp with value := units "   " } (by decide),
   C5_empty_tokenization_reports_error noCaseTable
    { initApp with value := units " ,.! " } (by decide)⟩

/-- Witness of C1: the token `Hi` of `Hi, there!`. -/
theorem C1_tokens_witness :
    units "Hi" ≠ [] ∧ (∀ c ∈ units "Hi", isSeparator c = false) ∧
    (∀ c ∈ units "Hi", c ≠ 32 ∧ c ≠ 9 ∧ c ≠ 10 ∧ c ≠ 44 ∧ c ≠ 46 ∧ c ≠ 33 ∧
      c ≠ 63 ∧ c ≠ 59 ∧ c ≠ 58) :=
  C1_tokens_nonempty_no_separator (units "Hi, there!") (units "Hi") (by decide)

/-! ## Latin alphabet: C3 -/

/-- Claim C3. With the Latin alphabet selected, the asset key and the display
form of every character are its uppercase form.  Consequently a conversion
(in a state with no other conversion suspended, under any settlement
schedule) ends with one word per token in order, each holding one cell per
character whose display form and asset key are that character uppercased;
`Hi there` gives exactly the two words `[H, I]` and `[T, H, E, R, E]`. -/
theorem C3_latin_uppercase (U : Nat → JSString) :
    (∀ c, getFileNameForLetter U Lang.en c = toUpperCase U c ∧
      displayLetter U Lang.en c = toUpperCase U c) ∧
    (∀ (s : State) (sched : List (List (Nat × Bool))),
      s.currentLanguage = Lang.en → s.tasks = [] →
      Schedule (conversionWords s.value) sched →
      (run U (convertText U s) (scheduleEvents sched)).tasks = [] ∧
      (wordsOf (run U (convertText U s) (scheduleEvents sched)).signOutput).map cellsOf =
        (conversionWords s.value).map (fun word => word.map (fun c =>
          (toUpperCase U c, toUpperCase U c)))) ∧
    (∀ sched : List (List (Nat × Bool)),
      Schedule [units "Hi", units "there"] sched →
      (wordsOf (run U initApp (Event.input (units "Hi there") :: Event.convertText ::
        scheduleEvents sched)).signOutput).map cellsOf =
      [[(units "H", units "H"), (units "I", units "I")],
       [(units "T", units "T"), (units "H", units "H"), (units "E", units "E"),
        (units "R", units "R"), (units "E", units "E")]]) := by
  have hgen : ∀ (s : State) (sched : List (List (Nat × Bool))),
      s.currentLanguage = Lang.en → s.tasks = [] →
      Schedule (conversionWords s.value) sched →
      (run U (convertText U s) (scheduleEvents sched)).tasks = [] ∧
      (wordsOf (run U (convertText U s) (scheduleEvents sched)).signOutput).map cellsOf =
        (conversionWords s.value).map (fun word => word.map (fun c =>
          (toUpperCase U c, toUpperCase U c))) := by
    intro s sched hlang htasks hsched
    by_cases hwords : conversionWords s.value = []
    · obtain ⟨_, h2, h3⟩ := convertText_no_words U s hwords
      rw [hwords] at hsched ⊢
      cases hsched
      show (convertText U s).tasks = [] ∧
        (wordsOf (convertText U s).signOutput).map cellsOf = []
      rw [h2, h3]
      exact ⟨htasks, rfl⟩
    · obtain ⟨h1, h2, _⟩ := convertText_observed U s sched htasks hwords hsched
      refine ⟨h1, ?_⟩
      rw [h2, hlang]
      rfl
  refine ⟨fun c => ⟨rfl, rfl⟩, hgen, ?_⟩
  intro sched hsched
  have hval : conversionWords (updateCounters
      { initApp with value := units "Hi there" }).value = [units "Hi", units "there"] := by
    decide
  rw [run_input_convert]
  rw [(hgen _ sched rfl rfl (by rw [hval]; exact hsched)).2, hval]
  rfl

/-- Witness of C3: `Hi there` with the letters of each word settling out of
order, some images missing. -/
theorem C3_latin_uppercase_witness :
    (wordsOf (run noCaseTable initApp (Event.input (units "Hi there") ::
      Event.convertText :: scheduleEvents
        [[(1, true), (0, false)],
         [(4, true), (0, true), (3, false), (1, true), (2, true)]])).signOutput).map
      cellsOf =
    [[(units "H", units "H"), (units "I", units "I")],
     [(units "T", units "T"), (units "H", units "H"), (units "E", units "E"),
      (units "R", units "R"), (units "E", units "E")]] :=
  (C3_latin_uppercase noCaseTable).2.2 _
    (List.Forall₂.cons (by decide) (List.Forall₂.cons (by decide) List.Forall₂.nil))

/-! ## Word assembly: C4 -/

/-- Claim C4. Let a suspended conversion await a freshly created word with
characters `c0 .. cn`, and let the image checks of its letters settle in any
order, each with any outcome (`evs` lists the settlements; its indices are a
permutation of the letter positions).  Then the word container is emitted, it
holds exactly `n + 1` letter groups, the `i`-th being the group that
`createLetterElement` created for `ci` (now carrying the format of its own
settlement). -/
theorem C4_cells_in_character_order (U : Nat → JSString) (s s0 : State) (k : Nat)
    (t : Task) (word : JSString) (wordIndex : Nat) (evs : List (Nat × Bool))
    (hget : s.tasks.get? k = some t)
    (hcur : t.current = createWordDisplay U s0 word wordIndex)
    (hne : word ≠ [])
    (hperm : (evs.map Prod.fst).Perm (List.range word.length)) :
    ∃ w, OutNode.word w ∈ (run U s (settlements k evs)).signOutput ∧
      w.word = word ∧
      (letterGroups w.letters).length = word.length ∧
      (∀ i (hi : i < word.length),
        ((letterGroups w.letters).get? i).map LetterGroup.unsettled =
          (letterGroups (createLetterElement U s0.currentLanguage []
            (word.get ⟨i, hi⟩) i word.length)).head?) ∧
      (∀ i b, (i, b) ∈ evs →
        ((letterGroups w.letters).get? i).map LetterGroup.format =
          some (some (formatOf b))) := by
  have hgroups : letterGroups t.current.letters =
      groupsWith U s0.currentLanguage (fun _ => none) word 0 := by
    rw [hcur]
    show letterGroups (forEachLetter U s0.currentLanguage word.length word 0 []) = _
    rw [letterGroups_forEachLetter U s0.currentLanguage (fun _ => none) (fun _ => rfl)]
    rfl
  obtain ⟨L, hL, hrun⟩ := run_settlements_word U s0.currentLanguage word k evs s t
    hget hgroups hne hperm
  have hnodup : (evs.map Prod.fst).Nodup :=
    hperm.nodup_iff.mpr (List.nodup_range _)
  refine ⟨{ t.current with letters := L }, ?_, ?_, ?_, ?_, ?_⟩
  · rw [hrun]
    apply mem_processWords
    exact List.mem_append_right _ (List.mem_singleton_self _)
  · show t.current.word = word
    rw [hcur]
    rfl
  · show (letterGroups L).length = word.length
    rw [hL, groupsWith_length]
  · intro i hi
    show ((letterGroups L).get? i).map LetterGroup.unsettled = _
    rw [hL, groupsWith_get?, List.get?_eq_get hi,
      letterGroups_createLetterElement U s0.currentLanguage (fun _ => none) (fun _ => rfl)]
    simp only [Nat.zero_add, Option.map_some', letterGroups, List.nil_append, groupsWith,
      List.head?, LetterGroup.unsettled, letterGroupFor]
  · intro i b hmem
    have hi : i < word.length := by
      have : i ∈ evs.map Prod.fst := List.mem_map.mpr ⟨(i, b), hmem, rfl⟩
      rw [hperm.mem_iff, List.mem_range] at this
      exact this
    show ((letterGroups L).get? i).map LetterGroup.format = _
    rw [hL, groupsWith_get?, List.get?_eq_get hi]
    simp only [Option.map_some', Nat.zero_add, letterGroupFor]
    rw [settleFormats_of_mem evs _ i b hnodup hmem rfl]

/-- Witness of C4: the word `Hi`, second letter settling first (image found),
first letter settling last (image missing). -/
theorem C4_cells_in_character_order_witness :
    ∃ w, OutNode.word w ∈
        (run noCaseTable hiAwaited (settlements 0 [(1, true), (0, false)])).signOutput ∧
      w.word = units "Hi" ∧
      (letterGroups w.letters).length = (units "Hi").length ∧
      (∀ i (hi : i < (units "Hi").length),
        ((letterGroups w.letters).get? i).map LetterGroup.unsettled =
          (letterGroups (createLetterElement noCaseTable Lang.en []
            ((units "Hi").get ⟨i, hi⟩) i (units "Hi").length)).head?) ∧
      (∀ i b, (i, b) ∈ [(1, true), (0, false)] →
        ((letterGroups w.letters).get? i).map LetterGroup.format =
          some (some (formatOf b))) :=
  C4_cells_in_character_order noCaseTable hiAwaited
    (clearOutput (updateCounters { initApp with value := units "Hi" })) 0
    { words := [units "Hi"], wordIndex := 0,
      current := createWordDisplay noCaseTable
        (clearOutput (updateCounters { initApp with value := units "Hi" }))
        (units "Hi") 0 }
    (units "Hi") 0 [(1, true), (0, false)] (by decide) rfl (by decide) (by decide)

/-! ## Scenarios: C7, C8 -/

/-- Claim C7 as stated fails: under the Arabic alphabet the cells of U+0623
U+0628 are not keyed `ALEF_HAMZA_BELOW`, `BA`. -/
theorem C7_not_hamza_below :
    (wordsOf (run noCaseTable initApp
      [Event.setLanguage Lang.ar, Event.input alefHamzaBa, Event.convertText,
        Event.imageSettled 0 0 true, Event.imageSettled 0 1 true]).signOutput).map
      (fun w => (cellsOf w).map Prod.snd)
    ≠ [[units "ALEF_HAMZA_BELOW", units "BA"]] := by
  decide

/-- Claim C7, amended. Converting U+0623 U+0628 under the Arabic alphabet yields
one word with two cells whose asset keys are `ALEF_HAMZA_ABOVE` and `BA` in
that order and whose display forms are the original characters, whatever the
outcome and the order of the two image checks. -/
theorem C7_alef_hamza_above_ba (U : Nat → JSString)
    (sched : List (List (Nat × Bool))) (hsched : Schedule [alefHamzaBa] sched) :
    (wordsOf (run U initApp (Event.setLanguage Lang.ar :: Event.input alefHamzaBa ::
      Event.convertText :: scheduleEvents sched)).signOutput).map cellsOf =
    [[([0x0623], units "ALEF_HAMZA_ABOVE"), ([0x0628], units "BA")]] := by
  have hval : conversionWords (updateCounters
      { setLanguage Lang.ar initApp with value := alefHamzaBa }).value = [alefHamzaBa] := by
    decide
  rw [run_language_input_convert]
  rw [(convertText_observed U _ sched rfl (by rw [hval]; exact List.cons_ne_nil _ _)
    (by rw [hval]; exact hsched)).2.1, hval]
  rfl

/-- Witness of C7: second image settling first and failing. -/
theorem C7_alef_hamza_above_ba_witness :
    (wordsOf (run noCaseTable initApp (Event.setLanguage Lang.ar ::
      Event.input alefHamzaBa :: Event.convertText ::
      scheduleEvents [[(1, false), (0, true)]])).signOutput).map cellsOf =
    [[([0x0623], units "ALEF_HAMZA_ABOVE"), ([0x0628], units "BA")]] :=
  C7_alef_hamza_above_ba noCaseTable [[(1, false), (0, true)]]
    (List.Forall₂.cons (by decide) List.Forall₂.nil)

/-- Claim C8 fails on the code: after typing `a,b` and converting, the two words
`a` and `b` are labelled "Word 1 of 1" and "Word 2 of 1": the total is the
whitespace word count kept by `updateCounters`, not the number of words being
converted. -/
theorem C8_label_total_is_counter (U : Nat → JSString) :
    conversionWords (units "a,b") = [units "a", units "b"] ∧
    labelsOf (run U initApp (Event.input (units "a,b") :: Event.convertText ::
      scheduleEvents [[(0, true)], [(0, true)]])).signOutput = [(1, 1), (2, 1)] := by
  have hval : conversionWords (updateCounters
      { initApp with value := units "a,b" }).value = [units "a", units "b"] := by
    decide
  refine ⟨by decide, ?_⟩
  rw [run_input_convert]
  rw [(convertText_observed U _ [[(0, true)], [(0, true)]] rfl
    (by rw [hval]; exact List.cons_ne_nil _ _)
    (by rw [hval]
        exact List.Forall₂.cons (by decide)
          (List.Forall₂.cons (by decide) List.Forall₂.nil))).2.2, hval]
  rfl

/-! ## Counters: C6 -/

/-- Claim C6. `updateCounters` sets the word count to the number of maximal runs
of non-whitespace characters of the text and the letter count to the number of
its non-whitespace characters; `one two  three` gives 3 words and 11
letters. -/
theorem C6_counters (s : State) :
    (updateCounters s).wordCount = nonWhitespaceRuns s.value ∧
    (updateCounters s).letterCount = nonWhitespaceCount s.value ∧
    (updateCounters { s with value := units "one two  three" }).wordCount = 3 ∧
    (updateCounters { s with value := units "one two  three" }).letterCount = 11 := by
  refine ⟨updateCounters_wordCount s, updateCounters_letterCount s, ?_, ?_⟩
  · rw [updateCounters_wordCount]
    show nonWhitespaceRuns (units "one two  three") = 3
    decide
  · rw [updateCounters_letterCount]
    show nonWhitespaceCount (units "one two  three") = 11
    decide

/-! ## Alphabet switch: C9 -/

/-- Claim C9 as stated fails: `a b` is converted under the Latin alphabet, the
alphabet is switched to Arabic while the first word is awaited, then the image
checks settle.  Right after the switch the output is the bare placeholder; at
the end both words of the conversion started before the switch are in the
output, and the second one is keyed with the Arabic alphabet, not the one
active when the conversion started. -/
theorem C9_switch_does_not_invalidate :
    (run noCaseTable initApp (switchedRun.take 3)).signOutput = [OutNode.placeholder] ∧
    (run noCaseTable initApp (switchedRun.take 3)).tasks.length = 1 ∧
    (wordsOf (run noCaseTable initApp switchedRun).signOutput).map
      (fun w => (w.word, w.langIndicator, cellsOf w)) =
    [(units "a", Lang.en, [(units "A", units "A")]),
     (units "b", Lang.ar, [(units "b", units "b")])] := by
  decide

/-- Claim C9, amended. In every reachable state, `setLanguage` sets the current
alphabet and resets the output to the placeholder (every word emitted so far
is removed) while the suspended conversions stay as they were.  And every
emitted word was created at one event of the history, a conversion start or a
settlement (before that event the word did not exist, after it it exists,
awaited or emitted); that event leaves `currentLanguage` as it found it, and
this alphabet, the one active when the word began assembly, is the one shown
by the language indicator of the word and the one that keys every cell of the
word: display form `displayLetter` and asset key `getFileNameForLetter` of the
character under that alphabet. -/
theorem C9_switch_clears_output_only (U : Nat → JSString) (events : List Event)
    (lang : Lang) :
    (setLanguage lang (run U initApp events)).currentLanguage = lang ∧
    (setLanguage lang (run U initApp events)).signOutput = [OutNode.placeholder] ∧
    (setLanguage lang (run U initApp events)).tasks = (run U initApp events).tasks ∧
    (∀ w, OutNode.word w ∈ (run U initApp events).signOutput →
      ∃ pre e post, events = pre ++ e :: post ∧
        (e = Event.convertText ∨ ∃ k i b, e = Event.imageSettled k i b) ∧
        ¬ Known (run U initApp pre) w ∧
        Known (run U initApp (pre ++ [e])) w ∧
        (run U initApp (pre ++ [e])).currentLanguage =
          (run U initApp pre).currentLanguage ∧
        w.langIndicator = (run U initApp pre).currentLanguage ∧
        cellsOf w = w.word.map (fun c =>
          (displayLetter U (run U initApp pre).currentLanguage c,
            getFileNameForLetter U (run U initApp pre).currentLanguage c))) := by
  refine ⟨rfl, rfl, rfl, ?_⟩
  intro w hw
  obtain ⟨pre, e, post, hev, he, h1, h2, h3⟩ :=
    known_history U w events (Or.inl ⟨w, hw, rfl⟩)
  obtain ⟨hlang, _, hcells⟩ := createdWith_keys U _ _ w h3
  refine ⟨pre, e, post, hev, he, h1, h2, ?_, hlang, hcells⟩
  rw [run_concat]
  exact currentLanguage_step U _ e he

/-- Witness of C9: the second word of the run above, created by the settlement
that follows the switch and keyed with the Arabic alphabet. -/
theorem C9_switch_clears_output_only_witness :
    ∃ pre e post, switchedRun = pre ++ e :: post ∧
      (e = Event.convertText ∨ ∃ k i b, e = Event.imageSettled k i b) ∧
      ¬ Known (run noCaseTable initApp pre) lateWord ∧
      Known (run noCaseTable initApp (pre ++ [e])) lateWord ∧
      (run noCaseTable initApp (pre ++ [e])).currentLanguage =
        (run noCaseTable initApp pre).currentLanguage ∧
      lateWord.langIndicator = (run noCaseTable initApp pre).currentLanguage ∧
      cellsOf lateWord = lateWord.word.map (fun c =>
        (displayLetter noCaseTable (run noCaseTable initApp pre).currentLanguage c,
          getFileNameForLetter noCaseTable
            (run noCaseTable initApp pre).currentLanguage c)) :=
  (C9_switch_clears_output_only noCaseTable switchedRun Lang.ar).2.2.2 lateWord
    (by decide)

end LetterSign
